import Mathlib

/-!
# Verification of the netpbm codec (spakin/netpbm)

A shallow embedding of the netpbm Go package: byte streams are `List Nat`
(each element a byte value < 256), the tokenizer and header parsers are
pure functions consuming a prefix of the stream, images are an inductive
mirroring the package's concrete image types, and the public decode/encode
entry points are total functions on these representations.
-/

namespace Netpbm

/-- `unicode.IsSpace` restricted to byte values 0–255 cast to runes:
true exactly for TAB, LF, VT, FF, CR, SP, NEL (0x85) and NBSP (0xA0). -/
def isSpace (b : Nat) : Bool :=
  b == 9 || b == 10 || b == 11 || b == 12 || b == 13 || b == 32 || b == 133 || b == 160

/-- ASCII decimal digit test (`'0' ≤ c ≤ '9'`). -/
def isDigit (b : Nat) : Bool :=
  48 ≤ b && b ≤ 57

/-- The digit-accumulation step every parser in the package uses:
`value = value*10 + int(c - '0')`. -/
def accDigit (v b : Nat) : Nat := v * 10 + (b - 48)

theorem accDigit_eq (v b : Nat) : accDigit v b = v * 10 + (b - 48) := rfl

/-- The value of an ASCII digit byte: `int(c - '0')`. -/
def decDigit (b : Nat) : Nat := b - 48

theorem decDigit_eq (b : Nat) : decDigit b = b - 48 := rfl

/- `accDigit`/`decDigit` are made irreducible while the recursive parsers
below are elaborated (the structural-recursion compiler otherwise diverges
on the literal subtraction); the default reducibility is restored after the
parsers' unfolding lemmas have been generated. -/
attribute [irreducible] accDigit decDigit

/-- Big-endian ASCII decimal digits of `n`, as Go's `fmt.Sprintf("%d", n)`
produces for a non-negative integer.  Structural recursion on fuel so that
the kernel can evaluate it. -/
def toDecAux : Nat → Nat → List Nat
  | 0, _ => []
  | fuel + 1, n => if n < 10 then [n + 48] else toDecAux fuel (n / 10) ++ [n % 10 + 48]

/-- Decimal representation of `n` as a list of ASCII byte values. -/
def toDec (n : Nat) : List Nat := toDecAux (n + 1) n

/-- Accumulate a digit-byte list onto a value the way the Go parsers do. -/
def digitsVal : Nat → List Nat → Nat
  | v, [] => v
  | v, d :: ds => digitsVal (accDigit v d) ds

theorem digitsVal_nil (v : Nat) : digitsVal v [] = v := by simp [digitsVal]

theorem digitsVal_cons (v d : Nat) (ds : List Nat) :
    digitsVal v (d :: ds) = digitsVal (accDigit v d) ds := by simp [digitsVal]

/-- Read a maximal run of decimal digits, continuing from accumulated value
`v`; returns the value and the unconsumed remainder (the first non-digit byte,
if any, stays in the stream — mirroring the Go code's `UnreadByte`). -/
def parseDigits : Nat → List Nat → Nat × List Nat
  | v, [] => (v, [])
  | v, b :: bs => if isDigit b then parseDigits (accDigit v b) bs else (v, b :: bs)

theorem parseDigits_nil (v : Nat) : parseDigits v [] = (v, []) := by simp [parseDigits]

theorem parseDigits_cons (v b : Nat) (bs : List Nat) :
    parseDigits v (b :: bs) =
      if isDigit b then parseDigits (accDigit v b) bs else (v, b :: bs) := by
  simp [parseDigits]

/-- GetNextInt's scanning loop: skip whitespace, `#`-comments (to the next
LF) and any other non-digit bytes until a digit is found, then read the
maximal digit run.  The flag records being inside a comment.  Running out of
input before the digits end makes the final `UnreadByte` fail, so an integer
must be followed by at least one more byte.  (On EOF inside a comment the Go
loop never terminates; that case is modelled as a parse failure.) -/
def gni : Bool → List Nat → Option (Nat × List Nat)
  | _, [] => none
  | true, b :: bs => if b == 10 then gni false bs else gni true bs
  | false, b :: bs =>
    if isSpace b then gni false bs
    else if b == 35 then gni true bs
    else if isDigit b then
      match parseDigits (decDigit b) bs with
      | (_, []) => none
      | (v, r) => some (v, r)
    else gni false bs

theorem gni_nil (c : Bool) : gni c [] = none := by cases c <;> simp [gni]

theorem gni_comment (b : Nat) (bs : List Nat) :
    gni true (b :: bs) = if b == 10 then gni false bs else gni true bs := by
  simp [gni]

/-- Where a comment inside `GetIntsAndComments` returns to: skipping
whitespace, or the middle of a digit run with accumulated value `num`. -/
inductive GiacBack where
  | sp : GiacBack
  | dig : Nat → GiacBack
deriving DecidableEq

/-- State of `GetIntsAndComments`'s scanner: `InSpace`, `InDigit` (with the
value read so far), or `InComment` (with the return state and the comment
bytes collected so far). -/
inductive GiacSt where
  | sp : GiacSt
  | dig : Nat → GiacSt
  | com : GiacBack → List Nat → GiacSt
deriving DecidableEq

/-- Strip one leading whitespace byte from a collected comment, as
`GetIntsAndComments` does before recording it. -/
def stripLead (cmt : List Nat) : List Nat :=
  match cmt with
  | [] => []
  | c :: cs => if isSpace c then cs else c :: cs

/-- The `GetIntsAndComments` state machine: reads integers separated by
whitespace and `#`-comments until `n` integers have been read; returns the
integers, the comments (in order), and the unconsumed remainder.  Any
unexpected byte, or end of input, is a failure (the Go code returns an
error from the space and digit states and loops forever on EOF inside a
comment; all are modelled as `none`). -/
def giacRun (n : Nat) : GiacSt → List Nat → List (List Nat) → List Nat →
    Option (List Nat × List (List Nat) × List Nat)
  | _, _, _, [] => none
  | .sp, nums, cmts, b :: bs =>
    if isSpace b then giacRun n .sp nums cmts bs
    else if isDigit b then giacRun n (.dig (decDigit b)) nums cmts bs
    else if b == 35 then giacRun n (.com .sp []) nums cmts bs
    else none
  | .dig num, nums, cmts, b :: bs =>
    if isDigit b then giacRun n (.dig (accDigit num b)) nums cmts bs
    else if isSpace b then
      (if (nums ++ [num]).length == n then some (nums ++ [num], cmts, bs)
       else giacRun n .sp (nums ++ [num]) cmts bs)
    else if b == 35 then giacRun n (.com (.dig num) []) nums cmts bs
    else none
  | .com back cmt, nums, cmts, b :: bs =>
    if b == 10 || b == 13 then
      giacRun n (match back with | .sp => .sp | .dig num => .dig num) nums
        (cmts ++ [stripLead cmt]) bs
    else giacRun n (.com back (cmt ++ [b])) nums cmts bs

theorem giacRun_nil (n : Nat) (st : GiacSt) (nums : List Nat)
    (cmts : List (List Nat)) : giacRun n st nums cmts [] = none := by
  cases st <;> simp [giacRun]

/-- `GetASCIIData`'s 8-bit branch: read `cnt` integers with `GetNextInt`,
each required to be at most `maxVal`; each is stored as one byte. -/
def getASCIIData8 (maxVal : Nat) : Nat → List Nat → Option (List Nat × List Nat)
  | 0, bytes => some ([], bytes)
  | cnt + 1, bytes =>
    match gni false bytes with
    | none => none
    | some (v, rest) =>
      if v > maxVal then none
      else
        match getASCIIData8 maxVal cnt rest with
        | none => none
        | some (vals, rest') => some (v :: vals, rest')

theorem getASCIIData8_zero (maxVal : Nat) (bytes : List Nat) :
    getASCIIData8 maxVal 0 bytes = some ([], bytes) := by simp [getASCIIData8]

theorem getASCIIData8_succ (maxVal cnt : Nat) (bytes : List Nat) :
    getASCIIData8 maxVal (cnt + 1) bytes =
      (match gni false bytes with
       | none => none
       | some (v, rest) =>
         if v > maxVal then none
         else
           match getASCIIData8 maxVal cnt rest with
           | none => none
           | some (vals, rest') => some (v :: vals, rest')) := by
  simp [getASCIIData8]

/-- `GetASCIIData`'s 16-bit branch: read `cnt` integers, each at most
`maxVal`, storing each as two bytes, big-endian (`uint8(val>>8)`,
`uint8(val)`). -/
def getASCIIData16 (maxVal : Nat) : Nat → List Nat → Option (List Nat × List Nat)
  | 0, bytes => some ([], bytes)
  | cnt + 1, bytes =>
    match gni false bytes with
    | none => none
    | some (v, rest) =>
      if v > maxVal then none
      else
        match getASCIIData16 maxVal cnt rest with
        | none => none
        | some (buf, rest') => some (v / 256 % 256 :: v % 256 :: buf, rest')

theorem getASCIIData16_zero (maxVal : Nat) (bytes : List Nat) :
    getASCIIData16 maxVal 0 bytes = some ([], bytes) := by simp [getASCIIData16]

theorem getASCIIData16_succ (maxVal cnt : Nat) (bytes : List Nat) :
    getASCIIData16 maxVal (cnt + 1) bytes =
      (match gni false bytes with
       | none => none
       | some (v, rest) =>
         if v > maxVal then none
         else
           match getASCIIData16 maxVal cnt rest with
           | none => none
           | some (buf, rest') => some (v / 256 % 256 :: v % 256 :: buf, rest')) := by
  simp [getASCIIData16]

/-- The parsed header of a PBM/PGM/PPM file (`netpbmHeader` restricted to
the fields those formats use); `magic` is the second magic byte. -/
structure NHeader where
  magic : Nat
  width : Nat
  height : Nat
  maxval : Nat
  comments : List (List Nat)
deriving DecidableEq

/-- `GetNetpbmHeader`: magic byte `'P'`, a digit `'1'`–`'6'`, one whitespace
byte, then two integers (width, height) for PBM — whose maxval is implicitly
1 — or three (width, height, maxval) otherwise, interleaved comments
collected; the maximum value must lie in [1, 65535]. -/
def getNetpbmHeader (bytes : List Nat) : Option (NHeader × List Nat) :=
  match bytes with
  | p :: m :: s :: rest =>
    if p ≠ 80 then none
    else if m < 49 ∨ 54 < m then none
    else if ¬ isSpace s then none
    else if m = 49 ∨ m = 52 then
      match giacRun 2 .sp [] [] rest with
      | some ([w, h], cmts, rest') => some (⟨m, w, h, 1, cmts⟩, rest')
      | _ => none
    else
      match giacRun 3 .sp [] [] rest with
      | some ([w, h, mv], cmts, rest') =>
        if 1 ≤ mv ∧ mv ≤ 65535 then some (⟨m, w, h, mv, cmts⟩, rest') else none
      | _ => none
  | _ => none

/-- The 8 bits of a byte, most significant first, as `decodePBM` extracts
them (`(oneByte >> i) & 1` for i = 7 … 0). -/
def bitsOfByte (b : Nat) : List Nat :=
  [b / 128 % 2, b / 64 % 2, b / 32 % 2, b / 16 % 2, b / 8 % 2, b / 4 % 2, b / 2 % 2, b % 2]

/-- Process the bits of one input byte inside `decodePBM`'s read loop:
emit bits, stopping early when the image is complete (`done = true`) or at
a row boundary (remaining bits of the byte are row padding).  Returns the
emitted bits, the updated bit counter, the bits still to read, and the
completion flag.  `rem` is positive on entry. -/
def procBits (width : Nat) : List Nat → Nat → Nat → (List Nat × Nat × Nat × Bool)
  | [], bitNum, rem => ([], bitNum, rem, false)
  | bit :: rest, bitNum, rem =>
    let bitNum' := bitNum + 1
    let rem' := rem - 1
    if rem' = 0 then ([bit], bitNum', rem', true)
    else if bitNum' % width = 0 then ([bit], bitNum', rem', false)
    else
      match procBits width rest bitNum' rem' with
      | (l, bn, r, f) => (bit :: l, bn, r, f)

/-- `decodePBM`'s read loop over whole input bytes: unpack bits MSB-first,
skipping each row's padding bits, until `rem` bits have been produced;
running out of input first is a read failure. -/
def pbmScan (width : Nat) : List Nat → Nat → Nat → Option (List Nat)
  | [], _, rem => if rem = 0 then some [] else none
  | byte :: rest, bitNum, rem =>
    if rem = 0 then some []
    else
      match procBits width (bitsOfByte byte) bitNum rem with
      | (bits, bitNum', rem', done) =>
        if done then some bits
        else
          match pbmScan width rest bitNum' rem' with
          | none => none
          | some more => some (bits ++ more)

/-- `decodePBMPlainWithComments`'s data loop: ASCII `'0'`/`'1'` bytes with
interleaved whitespace, until `t` bits have been read. -/
def pbmPlainBits : Nat → List Nat → Option (List Nat)
  | t, [] => if t = 0 then some [] else none
  | t, b :: bs =>
    if t = 0 then some []
    else if isSpace b then pbmPlainBits t bs
    else if b = 48 ∨ b = 49 then
      match pbmPlainBits (t - 1) bs with
      | none => none
      | some bits => some (decDigit b :: bits)
    else none

theorem pbmPlainBits_nil (t : Nat) :
    pbmPlainBits t [] = if t = 0 then some [] else none := by
  simp [pbmPlainBits]

theorem pbmPlainBits_cons (t b : Nat) (bs : List Nat) :
    pbmPlainBits t (b :: bs) =
      (if t = 0 then some []
       else if isSpace b then pbmPlainBits t bs
       else if b = 48 ∨ b = 49 then
         match pbmPlainBits (t - 1) bs with
         | none => none
         | some bits => some (decDigit b :: bits)
       else none) := by
  rw [pbmPlainBits]

/-- The Netpbm formats, in the package's declaration order
(`PNM < PBM < PGM < PPM < PAM`); PNM is the wildcard. -/
inductive NFormat where
  | PNM : NFormat
  | PBM : NFormat
  | PGM : NFormat
  | PPM : NFormat
  | PAM : NFormat
deriving DecidableEq

/-- The integer value of a `Format` constant (`PNM Format = iota`). -/
def NFormat.val : NFormat → Nat
  | .PNM => 0
  | .PBM => 1
  | .PGM => 2
  | .PPM => 3
  | .PAM => 4

/-- `Format.String()`. -/
def NFormat.name : NFormat → String
  | .PNM => "PNM"
  | .PBM => "PBM"
  | .PGM => "PGM"
  | .PPM => "PPM"
  | .PAM => "PAM"

/-- The package's concrete image types.  Each carries its bounds (zero-based,
as every decoder constructs them), the maximum-value model field, and the
`Pix` buffer as raw bytes laid out exactly as in the Go structs:
`BW` one palette index byte per pixel, `GrayM` one byte per pixel, `GrayM32`
two bytes (big-endian), `GrayAM` Y,A bytes, `GrayAM48` two bytes each,
`RGBM` R,G,B bytes, `RGBM64` two bytes per channel, `RGBAM` R,G,B,A bytes,
`RGBAM64` two bytes per channel. -/
inductive NImage where
  | bw (width height : Nat) (pix : List Nat)
  | grayM (width height m : Nat) (pix : List Nat)
  | grayM32 (width height m : Nat) (pix : List Nat)
  | grayAM (width height m : Nat) (pix : List Nat)
  | grayAM48 (width height m : Nat) (pix : List Nat)
  | rgbM (width height m : Nat) (pix : List Nat)
  | rgbM64 (width height m : Nat) (pix : List Nat)
  | rgbAM (width height m : Nat) (pix : List Nat)
  | rgbAM64 (width height m : Nat) (pix : List Nat)
deriving DecidableEq

/-- Each image type's `Format()` method: `BW` is PBM; the grayscale types
(with or without alpha) report PGM; the color types — including the
alpha-carrying `RGBAM`/`RGBAM64` — report PPM. -/
def NImage.format : NImage → NFormat
  | .bw .. => .PBM
  | .grayM .. => .PGM
  | .grayM32 .. => .PGM
  | .grayAM .. => .PGM
  | .grayAM48 .. => .PGM
  | .rgbM .. => .PPM
  | .rgbM64 .. => .PPM
  | .rgbAM .. => .PPM
  | .rgbAM64 .. => .PPM

/-- Each image type's `MaxValue()` method (`uint16` of the model's `M`
field, which is a `uint8` for the 8-bit types). -/
def NImage.maxValue : NImage → Nat
  | .bw .. => 1
  | .grayM _ _ m _ => m % 256
  | .grayM32 _ _ m _ => m % 65536
  | .grayAM _ _ m _ => m % 256
  | .grayAM48 _ _ m _ => m % 65536
  | .rgbM _ _ m _ => m % 256
  | .rgbM64 _ _ m _ => m % 65536
  | .rgbAM _ _ m _ => m % 256
  | .rgbAM64 _ _ m _ => m % 65536

/-- Number of colour channels stored per pixel in the image's buffer. -/
def NImage.channels : NImage → Nat
  | .bw .. => 1
  | .grayM .. => 1
  | .grayM32 .. => 1
  | .grayAM .. => 2
  | .grayAM48 .. => 2
  | .rgbM .. => 3
  | .rgbM64 .. => 3
  | .rgbAM .. => 4
  | .rgbAM64 .. => 4

/-- Combine a byte buffer two big-endian bytes at a time into 16-bit sample
values. -/
def chunk2Vals : List Nat → List Nat
  | hi :: lo :: rest => (hi * 256 + lo) :: chunk2Vals rest
  | _ => []

/-- Every sample (channel) value stored in the image, in buffer order: the
bytes themselves for the 8-bit types, and big-endian byte pairs recombined
for the 16-bit types. -/
def NImage.sampleValues : NImage → List Nat
  | .bw _ _ pix => pix
  | .grayM _ _ _ pix => pix
  | .grayM32 _ _ _ pix => chunk2Vals pix
  | .grayAM _ _ _ pix => pix
  | .grayAM48 _ _ _ pix => chunk2Vals pix
  | .rgbM _ _ _ pix => pix
  | .rgbM64 _ _ _ pix => chunk2Vals pix
  | .rgbAM _ _ _ pix => pix
  | .rgbAM64 _ _ _ pix => chunk2Vals pix

/-- The npcolor color values that appear in this development, plus Go's
`color.RGBA` (produced by the BW palette). -/
inductive NColor where
  | grayM (y m : Nat)
  | grayM32 (y m : Nat)
  | grayAM (y a m : Nat)
  | grayAM48 (y a m : Nat)
  | rgbM (r g b m : Nat)
  | rgbM64 (r g b m : Nat)
  | rgbAM (r g b a m : Nat)
  | rgbAM64 (r g b a m : Nat)
  | rgba8 (r g b a : Nat)
deriving DecidableEq

/-- Each color's `RGBA()` method: 16-bit alpha-premultiplied channels.
The npcolor types scale by the maximum value with round-to-nearest
(`(c*0xffff + m/2) / m`), returning zeros when `m = 0`; `color.RGBA`
replicates each 8-bit value into 16 bits (`v*0x101`). -/
def NColor.rgba : NColor → Nat × Nat × Nat × Nat
  | .grayM y m =>
    if m = 0 then (0, 0, 0, 0)
    else
      let yy := (y * 65535 + m / 2) / m
      (yy, yy, yy, 65535)
  | .grayM32 y m =>
    if m = 0 then (0, 0, 0, 0)
    else
      let yy := (y * 65535 + m / 2) / m
      (yy, yy, yy, 65535)
  | .rgbM r g b m =>
    if m = 0 then (0, 0, 0, 0)
    else ((r * 65535 + m / 2) / m, (g * 65535 + m / 2) / m, (b * 65535 + m / 2) / m, 65535)
  | .rgbM64 r g b m =>
    if m = 0 then (0, 0, 0, 0)
    else ((r * 65535 + m / 2) / m, (g * 65535 + m / 2) / m, (b * 65535 + m / 2) / m, 65535)
  | .grayAM y a m =>
    if m = 0 then (0, 0, 0, 0)
    else
      let aa := (a * 65535 + m / 2) / m
      let yy := (y * aa + m / 2) / m
      (yy, yy, yy, aa)
  | .grayAM48 y a m =>
    if m = 0 then (0, 0, 0, 0)
    else
      let aa := (a * 65535 + m / 2) / m
      let yy := (y * aa + m / 2) / m
      (yy, yy, yy, aa)
  | .rgbAM r g b a m =>
    if m = 0 then (0, 0, 0, 0)
    else
      let aa := (a * 65535 + m / 2) / m
      ((r * aa + m / 2) / m, (g * aa + m / 2) / m, (b * aa + m / 2) / m, aa)
  | .rgbAM64 r g b a m =>
    if m = 0 then (0, 0, 0, 0)
    else
      let aa := (a * 65535 + m / 2) / m
      ((r * aa + m / 2) / m, (g * aa + m / 2) / m, (b * aa + m / 2) / m, aa)
  | .rgba8 r g b a => (r * 257, g * 257, b * 257, a * 257)

/-- `GrayMModel.Convert`: a `GrayM` with the model's `M` passes through
unchanged; any other color is converted via its 16-bit `RGBA()` channels
with the fixed luma weights `(299*r + 587*g + 114*b + 500) / 1000`, then
scaled to the model's maximum with round-to-nearest and truncated to
`uint8`.  The model's `M` is a `uint8` (callers pass `M < 256`). -/
def grayMModelConvert (M : Nat) (c : NColor) : NColor :=
  match c with
  | .grayM y m => if m = M then .grayM y m else grayMGeneral M c
  | _ => grayMGeneral M c
where
  grayMGeneral (M : Nat) (c : NColor) : NColor :=
    match c.rgba with
    | (r, g, b, _) =>
      let y := (299 * r + 587 * g + 114 * b + 500) / 1000
      let y2 := (y * M + 65535 / 2) / 65535
      .grayM (y2 % 256) (M % 256)

/-- `GrayM32Model.Convert`, the 16-bit analogue of `GrayMModel.Convert`. -/
def grayM32ModelConvert (M : Nat) (c : NColor) : NColor :=
  match c with
  | .grayM32 y m => if m = M then .grayM32 y m else grayM32General M c
  | _ => grayM32General M c
where
  grayM32General (M : Nat) (c : NColor) : NColor :=
    match c.rgba with
    | (r, g, b, _) =>
      let y := (299 * r + 587 * g + 114 * b + 500) / 1000
      let y2 := (y * M + 65535 / 2) / 65535
      .grayM32 (y2 % 65536) (M % 65536)

/-- `RGBMModel.Convert`: pass-through for an `RGBM` with the model's `M`;
otherwise scale each 16-bit `RGBA()` channel to the model's maximum with
round-to-nearest, truncated to `uint8`. -/
def rgbMModelConvert (M : Nat) (c : NColor) : NColor :=
  match c with
  | .rgbM r g b m => if m = M then .rgbM r g b m else rgbMGeneral M c
  | _ => rgbMGeneral M c
where
  rgbMGeneral (M : Nat) (c : NColor) : NColor :=
    match c.rgba with
    | (r, g, b, _) =>
      .rgbM ((r * M + 65535 / 2) / 65535 % 256) ((g * M + 65535 / 2) / 65535 % 256)
        ((b * M + 65535 / 2) / 65535 % 256) (M % 256)

/-- `RGBM64Model.Convert`, the 16-bit analogue of `RGBMModel.Convert`. -/
def rgbM64ModelConvert (M : Nat) (c : NColor) : NColor :=
  match c with
  | .rgbM64 r g b m => if m = M then .rgbM64 r g b m else rgbM64General M c
  | _ => rgbM64General M c
where
  rgbM64General (M : Nat) (c : NColor) : NColor :=
    match c.rgba with
    | (r, g, b, _) =>
      .rgbM64 ((r * M + 65535 / 2) / 65535 % 65536) ((g * M + 65535 / 2) / 65535 % 65536)
        ((b * M + 65535 / 2) / 65535 % 65536) (M % 65536)

/-- The whitespace bytes `strings.TrimSpace` removes from a byte string
(only the ASCII space runes decode from single bytes). -/
def isAsciiSpace (b : Nat) : Bool :=
  b == 9 || b == 10 || b == 11 || b == 12 || b == 13 || b == 32

/-- `strings.TrimSpace` on a byte string. -/
def trimSpace (s : List Nat) : List Nat :=
  ((s.dropWhile (isAsciiSpace ·)).reverse.dropWhile (isAsciiSpace ·)).reverse

/-- Split a byte list at its first LF; `none` when there is no LF
(`ReadString('\n')` then reports an error). -/
def breakNewline : List Nat → Option (List Nat × List Nat)
  | [] => none
  | 10 :: bs => some ([], bs)
  | b :: bs =>
    match breakNewline bs with
    | none => none
    | some (l, r) => some (b :: l, r)

/-- Split a byte list at its first plain space (`strings.SplitN(s, " ", 2)`);
`none` when there is no space. -/
def breakSpace : List Nat → Option (List Nat × List Nat)
  | [] => none
  | 32 :: bs => some ([], bs)
  | b :: bs =>
    match breakSpace bs with
    | none => none
    | some (l, r) => some (b :: l, r)

/-- `GetLineAsKeyValue`: read one LF-terminated line and split it into a key
and value.  `none` = read error (no LF left); `some (none, rest)` = blank
line; a line starting with `#` yields the key `"#"` with the trimmed comment
text; otherwise the line splits at its first space, the value trimmed. -/
def getLineKV (bytes : List Nat) :
    Option (Option (List Nat × List Nat) × List Nat) :=
  match breakNewline bytes with
  | none => none
  | some (line, rest) =>
    let s := trimSpace line
    match s with
    | [] => some (none, rest)
    | 35 :: tail => some (some ([35], trimSpace tail), rest)
    | _ =>
      match breakSpace s with
      | none => some (some (s, []), rest)
      | some (k, v) => some (some (k, trimSpace v), rest)

/-- `strconv.Atoi` restricted to what a PAM header line can carry: an
optional sign followed by one or more decimal digits; anything else is an
error. -/
def pamAtoi (s : List Nat) : Option Int :=
  match s with
  | [] => none
  | 43 :: ds => (atoiDigits ds).map Int.ofNat
  | 45 :: ds => (atoiDigits ds).map (fun n => -(Int.ofNat n))
  | ds => (atoiDigits ds).map Int.ofNat
where
  atoiDigits (ds : List Nat) : Option Nat :=
    if ds ≠ [] ∧ ds.all (isDigit ·) then some (digitsVal 0 ds) else none

/-- The parsed header of a PAM file.  The dimension fields are `Int` as in
the Go struct (`strconv.Atoi` can produce negative values). -/
structure PamHeader where
  width : Int := 0
  height : Int := 0
  depth : Int := 0
  maxval : Int := 0
  tupleType : List Nat := []
  comments : List (List Nat) := []
deriving DecidableEq

def strENDHDR : List Nat := [69, 78, 68, 72, 68, 82]
def strHEIGHT : List Nat := [72, 69, 73, 71, 72, 84]
def strWIDTH : List Nat := [87, 73, 68, 84, 72]
def strDEPTH : List Nat := [68, 69, 80, 84, 72]
def strMAXVAL : List Nat := [77, 65, 88, 86, 65, 76]
def strTUPLTYPE : List Nat := [84, 85, 80, 76, 84, 89, 80, 69]
def strBLACKANDWHITE : List Nat := [66, 76, 65, 67, 75, 65, 78, 68, 87, 72, 73, 84, 69]
def strBLACKANDWHITE_ALPHA : List Nat := strBLACKANDWHITE ++ [95, 65, 76, 80, 72, 65]
def strGRAYSCALE : List Nat := [71, 82, 65, 89, 83, 67, 65, 76, 69]
def strGRAYSCALE_ALPHA : List Nat := strGRAYSCALE ++ [95, 65, 76, 80, 72, 65]
def strRGB : List Nat := [82, 71, 66]
def strRGB_ALPHA : List Nat := strRGB ++ [95, 65, 76, 80, 72, 65]

/-- `GetPamHeader`'s line loop: process key-value lines until `ENDHDR`.
A repeated `TUPLTYPE` concatenates with a space; `#` lines append to the
comment list; an unrecognised key or malformed integer fails.  Fuel is the
number of bytes left, which bounds the number of lines. -/
def pamLines : Nat → PamHeader → List Nat → Option (PamHeader × List Nat)
  | 0, _, _ => none
  | fuel + 1, h, bytes =>
    match getLineKV bytes with
    | none => none
    | some (none, rest) => pamLines fuel h rest
    | some (some (k, v), rest) =>
      if k = strENDHDR then some (h, rest)
      else if k = strHEIGHT then
        match pamAtoi v with
        | none => none
        | some i => pamLines fuel { h with height := i } rest
      else if k = strWIDTH then
        match pamAtoi v with
        | none => none
        | some i => pamLines fuel { h with width := i } rest
      else if k = strDEPTH then
        match pamAtoi v with
        | none => none
        | some i => pamLines fuel { h with depth := i } rest
      else if k = strMAXVAL then
        match pamAtoi v with
        | none => none
        | some i => pamLines fuel { h with maxval := i } rest
      else if k = strTUPLTYPE then
        pamLines fuel
          { h with tupleType :=
              (if h.tupleType ≠ [] then h.tupleType ++ [32] else h.tupleType) ++ v } rest
      else if k = [35] then
        pamLines fuel { h with comments := h.comments ++ [v] } rest
      else none

/-- `GetPamHeader`: the magic (`'P'`, `'7'`, one whitespace byte — the
`getMagic` helper is modelled from the spec, which requires magic then
whitespace, exactly as `GetNetpbmHeader` reads its own magic), then the
key-value line loop; the maximum value must lie in [1, 65535]. -/
def getPamHeader (bytes : List Nat) : Option (PamHeader × List Nat) :=
  match bytes with
  | p :: m :: s :: rest =>
    if p = 80 ∧ m = 55 ∧ isSpace s then
      match pamLines (rest.length + 1) {} rest with
      | none => none
      | some (h, rest') =>
        if 1 ≤ h.maxval ∧ h.maxval ≤ 65535 then some (h, rest') else none
    else none
  | _ => none

/-- `decodePGMWithComments` (raw PGM): parse the common header, then read
the pixel buffer directly from the stream — `Width*Height` bytes for
maxval < 256, twice that otherwise, with **no range check** on the sample
bytes; too little data is a read failure. -/
def decodePGMraw (bytes : List Nat) : Option (NImage × List (List Nat)) :=
  match getNetpbmHeader bytes with
  | none => none
  | some (h, rest) =>
    if h.maxval < 256 then
      let size := h.width * h.height
      if rest.length < size then none
      else some (.grayM h.width h.height h.maxval (rest.take size), h.comments)
    else
      let size := 2 * (h.width * h.height)
      if rest.length < size then none
      else some (.grayM32 h.width h.height h.maxval (rest.take size), h.comments)

/-- `decodePGMPlainWithComments` (plain PGM): parse the common header, then
read `Width*Height` ASCII integers, each checked to lie in `[0, maxval]`. -/
def decodePGMplain (bytes : List Nat) : Option (NImage × List (List Nat)) :=
  match getNetpbmHeader bytes with
  | none => none
  | some (h, rest) =>
    if h.maxval < 256 then
      match getASCIIData8 h.maxval (h.width * h.height) rest with
      | none => none
      | some (vals, _) => some (.grayM h.width h.height h.maxval vals, h.comments)
    else
      match getASCIIData16 h.maxval (h.width * h.height) rest with
      | none => none
      | some (buf, _) => some (.grayM32 h.width h.height h.maxval buf, h.comments)

/-- `decodePBMWithComments` (raw PBM): parse the common header, then unpack
`Width*Height` bits MSB-first with per-row padding skipped.  A zero-pixel
image is modelled as a failure (the Go loop then either errors on an empty
stream or writes past the empty buffer). -/
def decodePBMraw (bytes : List Nat) : Option (NImage × List (List Nat)) :=
  match getNetpbmHeader bytes with
  | none => none
  | some (h, rest) =>
    let total := h.width * h.height
    if total = 0 then none
    else
      match pbmScan h.width rest 0 total with
      | none => none
      | some bits => some (.bw h.width h.height bits, h.comments)

/-- `decodePBMPlainWithComments` (plain PBM): parse the common header, then
read `Width*Height` ASCII bits. -/
def decodePBMplain (bytes : List Nat) : Option (NImage × List (List Nat)) :=
  match getNetpbmHeader bytes with
  | none => none
  | some (h, rest) =>
    match pbmPlainBits (h.width * h.height) rest with
    | none => none
    | some bits => some (.bw h.width h.height bits, h.comments)

/-- Modelled from the spec (the current `decodePPMWithComments` is not in
the sources, only its callers): a raw PPM parses the common header, then
reads the 3-channel pixel data directly — 3 bytes per pixel for
maxval < 256, 6 otherwise (16-bit samples big-endian). -/
def decodePPMraw (bytes : List Nat) : Option (NImage × List (List Nat)) :=
  match getNetpbmHeader bytes with
  | none => none
  | some (h, rest) =>
    if h.maxval < 256 then
      let size := 3 * (h.width * h.height)
      if rest.length < size then none
      else some (.rgbM h.width h.height h.maxval (rest.take size), h.comments)
    else
      let size := 6 * (h.width * h.height)
      if rest.length < size then none
      else some (.rgbM64 h.width h.height h.maxval (rest.take size), h.comments)

/-- Modelled from the spec (the current `decodePPMPlainWithComments` is not
in the sources): a plain PPM parses the common header, then reads
`3*Width*Height` ASCII integers, each checked to lie in `[0, maxval]`. -/
def decodePPMplain (bytes : List Nat) : Option (NImage × List (List Nat)) :=
  match getNetpbmHeader bytes with
  | none => none
  | some (h, rest) =>
    if h.maxval < 256 then
      match getASCIIData8 h.maxval (3 * (h.width * h.height)) rest with
      | none => none
      | some (vals, _) => some (.rgbM h.width h.height h.maxval vals, h.comments)
    else
      match getASCIIData16 h.maxval (3 * (h.width * h.height)) rest with
      | none => none
      | some (buf, _) => some (.rgbM64 h.width h.height h.maxval buf, h.comments)

/-- `decodePAMWithComments`: parse the PAM header, pick the image type from
the tuple type and maxval, then read the pixel buffer directly from the
stream (depth × width × height samples, 1 or 2 bytes each).  Negative
dimensions are normalised by `image.Rect`, hence `natAbs`.  The
`BLACKANDWHITE` tuple types make the Go code panic (unimplemented /
`Unexpected color model`); both are modelled as failures, as is an
unrecognised tuple type (`Unsupported tuple type`). -/
def decodePAM (bytes : List Nat) : Option (NImage × List (List Nat)) :=
  match getPamHeader bytes with
  | none => none
  | some (h, rest) =>
    let w := h.width.natAbs
    let ht := h.height.natAbs
    let m := h.maxval.toNat
    let mk : Nat → (Nat → Nat → Nat → List Nat → NImage) →
        Option (NImage × List (List Nat)) := fun bpp ctor =>
      let size := bpp * (w * ht)
      if rest.length < size then none
      else some (ctor w ht m (rest.take size), h.comments)
    if h.tupleType = strRGB_ALPHA then
      if m < 256 then mk 4 .rgbAM else mk 8 .rgbAM64
    else if h.tupleType = strRGB then
      if m < 256 then mk 3 .rgbM else mk 6 .rgbM64
    else if h.tupleType = strGRAYSCALE_ALPHA then
      if m < 256 then mk 2 .grayAM else mk 4 .grayAM48
    else if h.tupleType = strGRAYSCALE then
      if m < 256 then mk 1 .grayM else mk 2 .grayM32
    else none

/-- The `uint8` computation `(1 - bw) * m` in `PromoteToGrayM`
(`1 - bw` wraps modulo 256). -/
def bwGray (m b : Nat) : Nat := (257 - b) % 256 * m % 256

theorem bwGray_eq (m b : Nat) : bwGray m b = (257 - b) % 256 * m % 256 := rfl

/-- The two big-endian bytes of `uint16(1-bw) * m` in `PromoteToGrayM32`. -/
def bwGray32 (m b : Nat) : List Nat :=
  ((257 - b) % 256 * m % 65536) / 256 :: [(257 - b) % 256 * m % 65536 % 256]

theorem bwGray32_eq (m b : Nat) :
    bwGray32 m b =
      [(257 - b) % 256 * m % 65536 / 256, (257 - b) % 256 * m % 65536 % 256] := rfl

attribute [irreducible] bwGray bwGray32

/-- `BW.PromoteToGrayM`: white (0) ↦ 0, black (1) ↦ m, in `uint8`
arithmetic. -/
def promoteToGrayMpix (m : Nat) (pix : List Nat) : List Nat := pix.map (bwGray m)

/-- `BW.PromoteToGrayM32`: the 16-bit analogue, two bytes per sample. -/
def promoteToGrayM32pix (m : Nat) (pix : List Nat) : List Nat :=
  pix.flatMap (bwGray32 m)

/-- `GrayM.PromoteToRGBM`: replicate the single gray channel into R, G
and B. -/
def grayToRGBpix (pix : List Nat) : List Nat := pix.flatMap (fun g => [g, g, g])

/-- `GrayM32.PromoteToRGBM64`: replicate each big-endian byte pair into the
three 16-bit channels (the Go loop writes byte `i` of the gray buffer at
offsets `(i/2)*6 + i%2 + {0,2,4}`). -/
def grayToRGB64pix : List Nat → List Nat
  | hi :: lo :: rest => hi :: lo :: hi :: lo :: hi :: lo :: grayToRGB64pix rest
  | _ => []

/-- Result of the promotion loop: the promoted image, or a runtime panic. -/
inductive PromRes where
  | ok (img : NImage)
  | panicked (msg : String)
deriving DecidableEq

/-- The promotion loop of `DecodeWithComments`: while the image's format is
below the target, promote PBM to PGM (8- or 16-bit according to the PBM
maximum-value option) and PGM to PPM; any other format hits the `default`
branch and panics.  A PGM-format image that is not `*GrayM`/`*GrayM32` as
the `MaxValue() < 256` test expects makes the Go type assertion panic.
The loop always terminates because each promotion strictly increases the
format; fuel ≥ 4 is never exhausted. -/
def promoteLoop : Nat → NImage → NFormat → Nat → PromRes
  | 0, _, _, _ => .panicked "out of fuel"
  | fuel + 1, img, target, pbmMax =>
    if img.format.val < target.val then
      match img with
      | .bw w h pix =>
        if pbmMax < 256 then
          promoteLoop fuel (.grayM w h pbmMax (promoteToGrayMpix pbmMax pix)) target pbmMax
        else
          promoteLoop fuel (.grayM32 w h pbmMax (promoteToGrayM32pix pbmMax pix)) target pbmMax
      | .grayM w h m pix =>
        promoteLoop fuel (.rgbM w h m (grayToRGBpix pix)) target pbmMax
      | .grayM32 w h m pix =>
        if m % 65536 < 256 then .panicked "interface conversion"
        else promoteLoop fuel (.rgbM64 w h m (grayToRGB64pix pix)) target pbmMax
      | .grayAM .. => .panicked "interface conversion"
      | .grayAM48 .. => .panicked "interface conversion"
      | _ => .panicked "Attempted to promote a format other than PBM or PGM"
    else .ok img

/-- `DecodeOptions`. -/
structure DecodeOpts where
  target : NFormat := .PNM
  exact : Bool := false
  pbmMaxValue : Nat := 0
deriving DecidableEq

/-- The defaulting `Decode` performs on its options: `nil` options become
the zero value, and a zero `PBMMaxValue` becomes 255. -/
def defaultOpts (opts : Option DecodeOpts) : DecodeOpts :=
  let o := opts.getD {}
  if o.pbmMaxValue = 0 then { o with pbmMaxValue := 255 } else o

/-- Outcome of a `DecodeWithComments` call: an image with the header
comments, an error value, or a runtime panic. -/
inductive DecodeResult where
  | ok (img : NImage) (comments : List (List Nat))
  | err (msg : String)
  | panicked (msg : String)
deriving DecidableEq

/-- The tail of `DecodeWithComments` after the per-format decoder ran: a
PNM target accepts the image as is; a target below the image's format is a
demotion error; otherwise the promotion loop runs. -/
def afterDecode (res : Option (NImage × List (List Nat))) (o : DecodeOpts) :
    DecodeResult :=
  match res with
  | none => .err "decode failure"
  | some (img, comments) =>
    if o.target = .PNM then .ok img comments
    else if o.target.val < img.format.val then
      .err ("Cannot demote a " ++ img.format.name ++ " image to a " ++
        o.target.name ++ " image")
    else
      match promoteLoop 8 img o.target o.pbmMaxValue with
      | .ok img' => .ok img' comments
      | .panicked msg => .panicked msg

/-- `DecodeWithComments`: peek two magic bytes (fewer is an error), require
`'P'`, apply option defaults, reject `Exact` with the PNM wildcard, then
dispatch on the magic digit — rejecting a format other than the target when
`Exact` is set — and finish with demotion check and promotion loop. -/
def netpbmDecode (bytes : List Nat) (opts : Option DecodeOpts) : DecodeResult :=
  match bytes with
  | b0 :: b1 :: _ =>
    if b0 ≠ 80 then .err "Not a Netpbm image"
    else
      let o := defaultOpts opts
      if o.exact ∧ o.target = .PNM then
        .err "Exact=true is incompatible with Target=PNM"
      else if b1 = 49 then
        if o.exact ∧ o.target ≠ .PBM then .err "PBM rejected by Decode options"
        else afterDecode (decodePBMplain bytes) o
      else if b1 = 50 then
        if o.exact ∧ o.target ≠ .PGM then .err "PGM rejected by Decode options"
        else afterDecode (decodePGMplain bytes) o
      else if b1 = 51 then
        if o.exact ∧ o.target ≠ .PPM then .err "PPM rejected by Decode options"
        else afterDecode (decodePPMplain bytes) o
      else if b1 = 52 then
        if o.exact ∧ o.target ≠ .PBM then .err "PBM rejected by Decode options"
        else afterDecode (decodePBMraw bytes) o
      else if b1 = 53 then
        if o.exact ∧ o.target ≠ .PGM then .err "PGM rejected by Decode options"
        else afterDecode (decodePGMraw bytes) o
      else if b1 = 54 then
        if o.exact ∧ o.target ≠ .PPM then .err "PPM rejected by Decode options"
        else afterDecode (decodePPMraw bytes) o
      else if b1 = 55 then
        if o.exact ∧ o.target ≠ .PAM then .err "PAM rejected by Decode options"
        else afterDecode (decodePAM bytes) o
      else .err "Unrecognized magic sequence"
  | _ => .err "EOF"

/-- The image's width (its bounds are zero-based in every constructor the
decoders use, so `Bounds().Max.X - Bounds().Min.X` is the stored width). -/
def NImage.width : NImage → Nat
  | .bw w _ _ => w
  | .grayM w _ _ _ => w
  | .grayM32 w _ _ _ => w
  | .grayAM w _ _ _ => w
  | .grayAM48 w _ _ _ => w
  | .rgbM w _ _ _ => w
  | .rgbM64 w _ _ _ => w
  | .rgbAM w _ _ _ => w
  | .rgbAM64 w _ _ _ => w

/-- The image's height. -/
def NImage.height : NImage → Nat
  | .bw _ h _ => h
  | .grayM _ h _ _ => h
  | .grayM32 _ h _ _ => h
  | .grayAM _ h _ _ => h
  | .grayAM48 _ h _ _ => h
  | .rgbM _ h _ _ => h
  | .rgbM64 _ h _ _ => h
  | .rgbAM _ h _ _ => h
  | .rgbAM64 _ h _ _ => h

/-- Split a byte list into (r, g, b) triples. -/
def chunk3 : List Nat → List (Nat × Nat × Nat)
  | r :: g :: b :: rest => (r, g, b) :: chunk3 rest
  | _ => []

/-- Split a byte list into (r, g, b, a) quadruples. -/
def chunk4 : List Nat → List (Nat × Nat × Nat × Nat)
  | r :: g :: b :: a :: rest => (r, g, b, a) :: chunk4 rest
  | _ => []

/-- Split a byte list into (y, a) pairs. -/
def chunkPairs : List Nat → List (Nat × Nat)
  | y :: a :: rest => (y, a) :: chunkPairs rest
  | _ => []

/-- The colors an image's `At` method returns, in row-major order — the
order in which every encoder's producer goroutine emits pixels.  (For `BW`
the palette maps index 0 to opaque white and index 1 to opaque black; the
palette only has those two entries.) -/
def pixelColors : NImage → List NColor
  | .bw _ _ pix =>
    pix.map (fun b => if b = 0 then NColor.rgba8 255 255 255 255 else NColor.rgba8 0 0 0 255)
  | .grayM _ _ m pix => pix.map (fun y => NColor.grayM y m)
  | .grayM32 _ _ m pix => (chunk2Vals pix).map (fun y => NColor.grayM32 y m)
  | .grayAM _ _ m pix =>
    (chunkPairs pix).map (fun p => NColor.grayAM p.1 p.2 m)
  | .grayAM48 _ _ m pix =>
    (chunkPairs (chunk2Vals pix)).map (fun p => NColor.grayAM48 p.1 p.2 m)
  | .rgbM _ _ m pix => (chunk3 pix).map (fun t => NColor.rgbM t.1 t.2.1 t.2.2 m)
  | .rgbM64 _ _ m pix =>
    (chunk3 (chunk2Vals pix)).map (fun t => NColor.rgbM64 t.1 t.2.1 t.2.2 m)
  | .rgbAM _ _ m pix =>
    (chunk4 pix).map (fun t => NColor.rgbAM t.1 t.2.1 t.2.2.1 t.2.2.2 m)
  | .rgbAM64 _ _ m pix =>
    (chunk4 (chunk2Vals pix)).map (fun t => NColor.rgbAM64 t.1 t.2.1 t.2.2.1 t.2.2.2 m)

/-- The R, G, B channels of a converted color
(`c.R`, `c.G`, `c.B` after an `RGBMModel`/`RGBM64Model` conversion). -/
def NColor.rgbChannels : NColor → List Nat
  | .rgbM r g b _ => [r, g, b]
  | .rgbM64 r g b _ => [r, g, b]
  | _ => []

/-- Replace a nonempty line's final byte (always the space of the last
word) with a newline, as `writePlainData` does before emitting it. -/
def setLastLF (line : List Nat) : List Nat := line.dropLast ++ [10]

/-- `writePlainData`'s loop: append each sample's decimal word (digits plus
a trailing space), flushing the current line — its last byte turned into a
newline — whenever adding the word would exceed 70 characters, and flushing
the final nonempty line at the end. -/
def wpd : List Nat → List Nat → List Nat
  | [], line => if line = [] then [] else setLastLF line
  | s :: ss, line =>
    let w := toDec s ++ [32]
    if line.length + w.length ≤ 70 then wpd ss (line ++ w)
    else setLastLF line ++ wpd ss w

/-- `writePlainData`: base-10 words, at most 70 characters per line. -/
def writePlainData (samples : List Nat) : List Nat := wpd samples []

/-- `writeRawData` with byte width 1: each sample as `uint8(s)`. -/
def writeRawData1 (samples : List Nat) : List Nat := samples.map (· % 256)

/-- `writeRawData` with byte width 2: each sample as `uint8(s>>8)` then
`uint8(s)`. -/
def writeRawData2 (samples : List Nat) : List Nat :=
  samples.flatMap (fun s => [s / 256 % 256, s % 256])

/-- `EncodeOptions`. -/
structure EncodeOpts where
  format : NFormat := .PNM
  maxValue : Nat := 0
  plain : Bool := false
  tupleType : List Nat := []
  comments : List (List Nat) := []
deriving DecidableEq

/-- `\n` and `\r` replaced by spaces, as the encoders sanitise each header
comment. -/
def sanitizeComment (c : List Nat) : List Nat :=
  c.map (fun b => if b = 10 ∨ b = 13 then 32 else b)

/-- The comment lines an encoder writes: `# ` + sanitised text + LF each. -/
def commentLines (cs : List (List Nat)) : List Nat :=
  cs.flatMap (fun c => [35, 32] ++ sanitizeComment c ++ [10])

/-- Modelled from the spec (the current `encodePPM`/`encodeRGBData`/
`encodeRGB64Data` are not in the sources, only their callers): the magic
line (`P3` plain / `P6` raw), the comment lines, `width height`, `maxval`,
then per pixel the R, G, B samples — converted through
`RGBMModel`/`RGBM64Model` with the requested maximum — as plain words or
raw bytes, exactly as `encodePGM` writes its samples. -/
def encodePPMbytes (img : NImage) (o : EncodeOpts) : List Nat :=
  (if o.plain then [80, 51, 10] else [80, 54, 10]) ++ commentLines o.comments ++
    toDec img.width ++ [32] ++ toDec img.height ++ [10] ++ toDec o.maxValue ++ [10] ++
    (if o.maxValue < 256 then
      (let samples := (pixelColors img).flatMap
        (fun c => (rgbMModelConvert (o.maxValue % 256) c).rgbChannels)
      if o.plain then writePlainData samples else writeRawData1 samples)
    else
      (let samples := (pixelColors img).flatMap
        (fun c => (rgbM64ModelConvert o.maxValue c).rgbChannels)
      if o.plain then writePlainData samples else writeRawData2 samples))

/-- What `Encode` receives: one of this package's images, or any other
`image.Image`. -/
inductive EncSource where
  | np (img : NImage)
  | generic
deriving DecidableEq

/-- The option-defaulting logic at the top of `Encode`: `nil` options become
the zero value; a PNM (zero) format becomes the image's own format for a
netpbm image and PAM otherwise; a PAM format with no tuple type gets
`RGB_ALPHA`; a zero maximum value becomes the image's own maximum for a
netpbm image and 255 otherwise. -/
def encodeDefaults (opts : Option EncodeOpts) (img : EncSource) : EncodeOpts :=
  let o := opts.getD {}
  let o1 := if o.format = .PNM then
      { o with format := match img with | .np i => i.format | .generic => .PAM }
    else o
  let o2 := if o1.format = .PAM ∧ o1.tupleType = [] then
      { o1 with tupleType := strRGB_ALPHA }
    else o1
  if o2.maxValue = 0 then
    { o2 with maxValue := match img with | .np i => i.maxValue | .generic => 255 }
  else o2

/-- Which per-format encoder `Encode`'s final switch dispatches to. -/
inductive EncDispatch where
  | ppm | pgm | pbm | pam | invalid
deriving DecidableEq

/-- `Encode`'s final dispatch on the (defaulted) format. -/
def encodeDispatch (o : EncodeOpts) : EncDispatch :=
  match o.format with
  | .PPM => .ppm
  | .PGM => .pgm
  | .PBM => .pbm
  | .PAM => .pam
  | .PNM => .invalid

/- All recursive parsers are defined; restore the default reducibility of
the guarded helpers so that concrete evaluation (`decide`) works. -/
set_option allowUnsafeReducibility true in
attribute [semireducible] accDigit decDigit bwGray bwGray32

/-- The per-magic decoder `DecodeWithComments` dispatches to (second magic
byte `'1'`–`'7'`). -/
def magicDecoder (b1 : Nat) (bytes : List Nat) : Option (NImage × List (List Nat)) :=
  if b1 = 49 then decodePBMplain bytes
  else if b1 = 50 then decodePGMplain bytes
  else if b1 = 51 then decodePPMplain bytes
  else if b1 = 52 then decodePBMraw bytes
  else if b1 = 53 then decodePGMraw bytes
  else if b1 = 54 then decodePPMraw bytes
  else if b1 = 55 then decodePAM bytes
  else none

/-- The native format associated with a magic digit byte. -/
def magicFormat (b : Nat) : NFormat :=
  if b = 49 ∨ b = 52 then .PBM
  else if b = 50 ∨ b = 53 then .PGM
  else if b = 51 ∨ b = 54 then .PPM
  else .PAM


/-! ## Decimal digit facts -/

theorem digitsVal_append (v : Nat) (xs ys : List Nat) :
    digitsVal v (xs ++ ys) = digitsVal (digitsVal v xs) ys := by
  induction xs generalizing v with
  | nil => rfl
  | cons d ds ih =>
    rw [List.cons_append, digitsVal_cons, digitsVal_cons]
    exact ih _

theorem toDecAux_succ (fuel n : Nat) :
    toDecAux (fuel + 1) n =
      if n < 10 then [n + 48] else toDecAux fuel (n / 10) ++ [n % 10 + 48] := rfl

theorem toDecAux_eval (fuel n : Nat) (h : n ≤ fuel) (v : Nat) :
    digitsVal v (toDecAux (fuel + 1) n) = v * 10 ^ (toDecAux (fuel + 1) n).length + n := by
  induction fuel generalizing n v with
  | zero =>
    have hn : n = 0 := by omega
    subst hn
    rw [toDecAux_succ, if_pos (by norm_num), digitsVal_cons, digitsVal_nil, accDigit_eq]
    simp
  | succ fuel ih =>
    by_cases hn : n < 10
    · rw [toDecAux_succ, if_pos hn, digitsVal_cons, digitsVal_nil, accDigit_eq]
      simp
    · have hrec : n / 10 ≤ fuel := by omega
      rw [toDecAux_succ, if_neg hn, digitsVal_append, ih (n / 10) hrec v,
        digitsVal_cons, digitsVal_nil, accDigit_eq, List.length_append]
      have hmod : n % 10 + 48 - 48 = n % 10 := by omega
      rw [hmod]
      have hn10 : n / 10 * 10 + n % 10 = n := Nat.div_add_mod' n 10
      calc (v * 10 ^ (toDecAux (fuel + 1) (n / 10)).length + n / 10) * 10 + n % 10
          = v * (10 ^ (toDecAux (fuel + 1) (n / 10)).length * 10) +
              (n / 10 * 10 + n % 10) := by ring
        _ = v * 10 ^ ((toDecAux (fuel + 1) (n / 10)).length + [n % 10 + 48].length) + n := by
            rw [List.length_singleton, pow_succ, hn10]

theorem digitsVal_toDec (n : Nat) : digitsVal 0 (toDec n) = n := by
  have := toDecAux_eval n n (le_refl n) 0
  simpa [toDec] using this

theorem toDecAux_digits (fuel n : Nat) (h : n ≤ fuel) :
    ∀ d ∈ toDecAux (fuel + 1) n, 48 ≤ d ∧ d ≤ 57 := by
  induction fuel generalizing n with
  | zero =>
    have hn : n = 0 := by omega
    subst hn
    rw [toDecAux_succ, if_pos (by norm_num)]
    simp
  | succ fuel ih =>
    by_cases hn : n < 10
    · rw [toDecAux_succ, if_pos hn]
      simp
      omega
    · have hrec : n / 10 ≤ fuel := by omega
      rw [toDecAux_succ, if_neg hn]
      intro d hd
      rcases List.mem_append.mp hd with h1 | h1
      · exact ih (n / 10) hrec d h1
      · simp at h1
        omega

theorem toDec_digits (n : Nat) : ∀ d ∈ toDec n, 48 ≤ d ∧ d ≤ 57 :=
  toDecAux_digits n n (le_refl n)

theorem toDec_isDigit (n : Nat) : ∀ d ∈ toDec n, isDigit d = true := by
  intro d hd
  have := toDec_digits n d hd
  simp [isDigit]
  omega

theorem toDecAux_length_le (fuel n k : Nat) (h : n ≤ fuel) (hk : 1 ≤ k)
    (hn : n < 10 ^ k) : (toDecAux (fuel + 1) n).length ≤ k := by
  induction fuel generalizing n k with
  | zero =>
    have h0 : n = 0 := by omega
    subst h0
    rw [toDecAux_succ, if_pos (by norm_num)]
    simpa using hk
  | succ fuel ih =>
    by_cases h10 : n < 10
    · rw [toDecAux_succ, if_pos h10]
      simpa using hk
    · have hrec : n / 10 ≤ fuel := by omega
      have hk2 : 2 ≤ k := by
        by_contra hc
        have hck : k = 1 := by omega
        subst hck
        simp at hn
        omega
      have hdiv : n / 10 < 10 ^ (k - 1) := by
        have hpow : 10 ^ k = 10 ^ (k - 1) * 10 := by
          conv_lhs => rw [show k = (k - 1) + 1 by omega]
          rw [pow_succ]
        have hlt : n < 10 ^ (k - 1) * 10 := by omega
        omega
      rw [toDecAux_succ, if_neg h10, List.length_append]
      have := ih (n / 10) (k - 1) hrec (by omega) hdiv
      simp
      omega

theorem toDec_length_le (n k : Nat) (hk : 1 ≤ k) (hn : n < 10 ^ k) :
    (toDec n).length ≤ k :=
  toDecAux_length_le n n k (le_refl n) hk hn

theorem parseDigits_append (v : Nat) (ds rest : List Nat)
    (hd : ∀ d ∈ ds, isDigit d = true) :
    parseDigits v (ds ++ rest) = parseDigits (digitsVal v ds) rest := by
  induction ds generalizing v with
  | nil => rw [List.nil_append, digitsVal_nil]
  | cons d ds ih =>
    have hdd : isDigit d = true := hd d (List.mem_cons_self d ds)
    rw [List.cons_append, parseDigits_cons, if_pos hdd, digitsVal_cons]
    exact ih _ (fun x hx => hd x (List.mem_cons_of_mem d hx))

theorem parseDigits_not_digit (v : Nat) (b : Nat) (bs : List Nat)
    (h : isDigit b = false) : parseDigits v (b :: bs) = (v, b :: bs) := by
  rw [parseDigits_cons, if_neg (by simp [h])]

theorem parseDigits_toDec (n : Nat) (b : Nat) (bs : List Nat)
    (h : isDigit b = false) :
    parseDigits 0 (toDec n ++ b :: bs) = (n, b :: bs) := by
  rw [parseDigits_append 0 (toDec n) (b :: bs) (toDec_isDigit n),
    digitsVal_toDec, parseDigits_not_digit _ _ _ h]

/-! ## Shared facts -/

theorem defaultOpts_target (o : DecodeOpts) : (defaultOpts (some o)).target = o.target := by
  simp only [defaultOpts, Option.getD_some]
  split <;> rfl

theorem defaultOpts_exact (o : DecodeOpts) : (defaultOpts (some o)).exact = o.exact := by
  simp only [defaultOpts, Option.getD_some]
  split <;> rfl

/-! ## C8: luma weights of the grayscale conversion -/

/-- C8: converting an arbitrary color to grayscale — through either
`GrayMModel.Convert` or `GrayM32Model.Convert` — computes the luma of the
16-bit `RGBA()` channels as `y = (299*r + 587*g + 114*b + 500) / 1000`
(weights 299/587/114 per thousand, rounded to nearest by adding half the
divisor), then scales it to the model's maximum value. -/
theorem C8_luma_weights (M M32 r g b a : Nat) (c : NColor)
    (hc : c.rgba = (r, g, b, a)) (hr : r ≤ 65535) (hg : g ≤ 65535) (hb : b ≤ 65535)
    (hM : M ≤ 255) (hM32 : M32 ≤ 65535)
    (hng8 : ∀ y m, c ≠ NColor.grayM y m) (hng32 : ∀ y m, c ≠ NColor.grayM32 y m) :
    grayMModelConvert M c =
      NColor.grayM (((299 * r + 587 * g + 114 * b + 500) / 1000 * M + 32767) / 65535) M ∧
    grayM32ModelConvert M32 c =
      NColor.grayM32 (((299 * r + 587 * g + 114 * b + 500) / 1000 * M32 + 32767) / 65535)
        M32 := by
  have hy : (299 * r + 587 * g + 114 * b + 500) / 1000 ≤ 65535 := by
    have : 299 * r + 587 * g + 114 * b + 500 ≤ 1000 * 65535 + 500 := by omega
    omega
  have hy2 : ((299 * r + 587 * g + 114 * b + 500) / 1000 * M + 32767) / 65535 ≤ M := by
    have h1 : (299 * r + 587 * g + 114 * b + 500) / 1000 * M ≤ 65535 * M :=
      Nat.mul_le_mul_right M hy
    have h2 : ((299 * r + 587 * g + 114 * b + 500) / 1000 * M + 32767) ≤ 65535 * M + 32767 := by
      omega
    calc ((299 * r + 587 * g + 114 * b + 500) / 1000 * M + 32767) / 65535
        ≤ (65535 * M + 32767) / 65535 := Nat.div_le_div_right h2
      _ = M := by omega
  have hy232 : ((299 * r + 587 * g + 114 * b + 500) / 1000 * M32 + 32767) / 65535 ≤ M32 := by
    have h1 : (299 * r + 587 * g + 114 * b + 500) / 1000 * M32 ≤ 65535 * M32 :=
      Nat.mul_le_mul_right M32 hy
    have h2 : ((299 * r + 587 * g + 114 * b + 500) / 1000 * M32 + 32767) ≤
        65535 * M32 + 32767 := by omega
    calc ((299 * r + 587 * g + 114 * b + 500) / 1000 * M32 + 32767) / 65535
        ≤ (65535 * M32 + 32767) / 65535 := Nat.div_le_div_right h2
      _ = M32 := by omega
  constructor
  · have hgen : grayMModelConvert M c = grayMModelConvert.grayMGeneral M c := by
      cases c with
      | grayM y m => exact absurd rfl (hng8 y m)
      | _ => rfl
    rw [hgen, grayMModelConvert.grayMGeneral, hc]
    simp only []
    rw [Nat.mod_eq_of_lt (by omega), Nat.mod_eq_of_lt (by omega)]
  · have hgen : grayM32ModelConvert M32 c = grayM32ModelConvert.grayM32General M32 c := by
      cases c with
      | grayM32 y m => exact absurd rfl (hng32 y m)
      | _ => rfl
    rw [hgen, grayM32ModelConvert.grayM32General, hc]
    simp only []
    rw [Nat.mod_eq_of_lt (by omega), Nat.mod_eq_of_lt (by omega)]

/-- Witness for C8 at a concrete color: `color.RGBA{10,20,30,255}`
converted with maximum values 100 (8-bit model) and 1000 (16-bit model). -/
theorem C8_luma_weights_witness :
    grayMModelConvert 100 (NColor.rgba8 10 20 30 255) =
      NColor.grayM (((299 * 2570 + 587 * 5140 + 114 * 7710 + 500) / 1000 * 100 + 32767)
        / 65535) 100 ∧
    grayM32ModelConvert 1000 (NColor.rgba8 10 20 30 255) =
      NColor.grayM32 (((299 * 2570 + 587 * 5140 + 114 * 7710 + 500) / 1000 * 1000 + 32767)
        / 65535) 1000 :=
  C8_luma_weights 100 1000 2570 5140 7710 65535 (NColor.rgba8 10 20 30 255)
    (by decide) (by decide) (by decide) (by decide) (by decide) (by decide)
    (by intro y m h; cases h) (by intro y m h; cases h)

/-! ## C10: Encode's option defaulting -/

/-- C10: with nil options (equivalently, an options struct with the zero
Format PNM and MaxValue 0) and an image that is not a netpbm `Image`,
`Encode` defaults to a PAM file with TupleType `RGB_ALPHA` and MaxValue
255 (and its final switch then dispatches to the PAM encoder); for a
netpbm `Image` the defaults are the image's own `Format()` and
`MaxValue()`. -/
theorem C10_encode_defaults :
    (encodeDefaults none .generic =
      { format := .PAM, maxValue := 255, plain := false,
        tupleType := strRGB_ALPHA, comments := [] } ∧
      encodeDispatch (encodeDefaults none .generic) = .pam) ∧
    (∀ img : NImage,
      (encodeDefaults none (.np img)).format = img.format ∧
      (encodeDefaults none (.np img)).maxValue = img.maxValue) ∧
    (∀ img : EncSource, encodeDefaults (some {}) img = encodeDefaults none img) := by
  refine ⟨⟨by decide, by decide⟩, ?_, ?_⟩
  · intro img
    cases img <;> simp [encodeDefaults, NImage.format, NImage.maxValue, strRGB_ALPHA, strRGB]
  · intro img
    rfl

/-! ## C5: Exact-mode rejections happen before any image data is read -/

/-- C5: with `Exact=true` and `Target=PNM`, `Decode` fails with the
configuration error for every input starting with `'P'` — whatever bytes
follow the two peeked magic bytes, so before any header or image data is
read; and with `Exact=true` and a target different from the magic's native
format, it fails with the rejection error, again for every continuation. -/
theorem C5_exact_checks :
    (∀ (b1 : Nat) (rest : List Nat) (pm : Nat),
      netpbmDecode (80 :: b1 :: rest) (some ⟨.PNM, true, pm⟩) =
        .err "Exact=true is incompatible with Target=PNM") ∧
    (∀ (b1 : Nat) (rest : List Nat) (o : DecodeOpts),
      o.exact = true → o.target ≠ .PNM → 49 ≤ b1 → b1 ≤ 55 →
      o.target ≠ magicFormat b1 →
      netpbmDecode (80 :: b1 :: rest) (some o) =
        .err ((magicFormat b1).name ++ " rejected by Decode options")) := by
  constructor
  · intro b1 rest pm
    by_cases hpm : pm = 0 <;> simp [netpbmDecode, defaultOpts, hpm]
  · intro b1 rest o hex ht hb1 hb7 hmf
    obtain ⟨t, e, p⟩ := o
    simp only [DecodeOpts.exact] at hex
    simp only [DecodeOpts.target] at ht hmf
    subst hex
    interval_cases b1 <;>
      simp_all [netpbmDecode, defaultOpts, magicFormat, NFormat.name] <;>
      by_cases hp : p = 0 <;> simp_all

/-- Witness for C5: a plain-PGM magic with `Exact=true`; once with the PNM
wildcard target (configuration error) and once with a PPM target
(rejection), each for an input with no bytes at all after the magic. -/
theorem C5_exact_checks_witness :
    netpbmDecode [80, 50] (some ⟨.PNM, true, 0⟩) =
      .err "Exact=true is incompatible with Target=PNM" ∧
    netpbmDecode [80, 50] (some ⟨.PPM, true, 0⟩) =
      .err ("PGM" ++ " rejected by Decode options") :=
  ⟨C5_exact_checks.1 50 [] 0,
   C5_exact_checks.2 50 [] ⟨.PPM, true, 0⟩ rfl (by decide) (by decide) (by decide)
     (by decide)⟩

/-- With `Exact=false`, `DecodeWithComments` is the per-magic decoder
followed by the PNM check, demotion check and promotion loop. -/
theorem netpbmDecode_dispatch (b1 : Nat) (rest : List Nat) (o : DecodeOpts)
    (hb1 : 49 ≤ b1) (hb7 : b1 ≤ 55) (hex : o.exact = false) :
    netpbmDecode (80 :: b1 :: rest) (some o) =
      afterDecode (magicDecoder b1 (80 :: b1 :: rest)) (defaultOpts (some o)) := by
  obtain ⟨t, e, p⟩ := o
  simp only [DecodeOpts.exact] at hex
  subst hex
  interval_cases b1 <;>
    by_cases hp : p = 0 <;>
    simp_all [netpbmDecode, defaultOpts, magicDecoder]

/-! ## C4: demotion is rejected, never silently truncated -/

/-- C4: whenever the per-magic decoder succeeds with an image whose native
format lies strictly above the (non-wildcard) target and `Exact=false`,
`Decode` returns the demotion error — so no image with truncated channels
is ever returned. -/
theorem C4_demotion_rejected (b1 : Nat) (rest : List Nat) (o : DecodeOpts)
    (img : NImage) (cmts : List (List Nat))
    (hb1 : 49 ≤ b1) (hb7 : b1 ≤ 55) (hex : o.exact = false) (ht : o.target ≠ .PNM)
    (hdec : magicDecoder b1 (80 :: b1 :: rest) = some (img, cmts))
    (hgt : o.target.val < img.format.val) :
    netpbmDecode (80 :: b1 :: rest) (some o) =
      .err ("Cannot demote a " ++ img.format.name ++ " image to a " ++
        o.target.name ++ " image") := by
  rw [netpbmDecode_dispatch b1 rest o hb1 hb7 hex, hdec]
  simp only [afterDecode, defaultOpts_target]
  rw [if_neg ht, if_pos hgt]

/-- Witness for C4: the raw PGM file `P5\n1 1\n255\n␇` decoded with
`Target=PBM`, `Exact=false` yields the demotion error. -/
theorem C4_demotion_rejected_witness :
    netpbmDecode [80, 53, 10, 49, 32, 49, 10, 50, 53, 53, 10, 7]
      (some ⟨.PBM, false, 0⟩) =
      .err ("Cannot demote a " ++ (NImage.grayM 1 1 255 [7]).format.name ++
        " image to a " ++ (NFormat.PBM).name ++ " image") :=
  C4_demotion_rejected 53 [10, 49, 32, 49, 10, 50, 53, 53, 10, 7] ⟨.PBM, false, 0⟩
    (.grayM 1 1 255 [7]) [] (by decide) (by decide) rfl (by decide) (by decide)
    (by decide)

/-- A successfully parsed PBM/PGM/PPM header has its maximum value in
[1, 65535]. -/
theorem getNetpbmHeader_maxval (bytes : List Nat) (h : NHeader) (rest : List Nat)
    (hp : getNetpbmHeader bytes = some (h, rest)) :
    1 ≤ h.maxval ∧ h.maxval ≤ 65535 := by
  rcases bytes with _ | ⟨p, _ | ⟨m, _ | ⟨s, rest0⟩⟩⟩ <;>
    simp only [getNetpbmHeader] at hp
  · exact absurd hp (by simp)
  · exact absurd hp (by simp)
  · exact absurd hp (by simp)
  · split at hp
    · exact absurd hp (by simp)
    · split at hp
      · exact absurd hp (by simp)
      · split at hp
        · exact absurd hp (by simp)
        · split at hp
          · split at hp
            · rename_i heq
              rw [Option.some_inj] at hp
              obtain ⟨rfl, rfl⟩ := Prod.mk.injEq .. ▸ (Prod.ext_iff.mp hp)
              simp
            · exact absurd hp (by simp)
          · split at hp
            · split at hp
              · rename_i hmv
                rw [Option.some_inj] at hp
                obtain ⟨rfl, rfl⟩ := Prod.mk.injEq .. ▸ (Prod.ext_iff.mp hp)
                simpa using hmv
              · exact absurd hp (by simp)
            · exact absurd hp (by simp)

/-- A successful raw PGM decode yields an 8-bit gray image with maximum in
[1, 255] or a 16-bit one with maximum in [256, 65535]. -/
theorem decodePGMraw_shape (bytes : List Nat) (img : NImage) (cmts : List (List Nat))
    (h : decodePGMraw bytes = some (img, cmts)) :
    (∃ w ht m pix, img = .grayM w ht m pix ∧ 1 ≤ m ∧ m < 256) ∨
    (∃ w ht m pix, img = .grayM32 w ht m pix ∧ 256 ≤ m ∧ m ≤ 65535) := by
  rw [decodePGMraw] at h
  split at h
  · exact absurd h (by simp)
  · rename_i hd rest hheq
    have hb := getNetpbmHeader_maxval bytes hd rest hheq
    try dsimp only at h
    split at h
    · rename_i hlt
      split at h
      · exact absurd h (by simp)
      · simp only [Option.some_inj, Prod.mk.injEq] at h
        obtain ⟨rfl, rfl⟩ := h
        exact Or.inl ⟨_, _, _, _, rfl, by omega, hlt⟩
    · rename_i hlt
      split at h
      · exact absurd h (by simp)
      · simp only [Option.some_inj, Prod.mk.injEq] at h
        obtain ⟨rfl, rfl⟩ := h
        exact Or.inr ⟨_, _, _, _, rfl, by omega, by omega⟩

/-- A successful plain PGM decode yields an 8-bit gray image with maximum
in [1, 255] or a 16-bit one with maximum in [256, 65535]. -/
theorem decodePGMplain_shape (bytes : List Nat) (img : NImage) (cmts : List (List Nat))
    (h : decodePGMplain bytes = some (img, cmts)) :
    (∃ w ht m pix, img = .grayM w ht m pix ∧ 1 ≤ m ∧ m < 256) ∨
    (∃ w ht m pix, img = .grayM32 w ht m pix ∧ 256 ≤ m ∧ m ≤ 65535) := by
  rw [decodePGMplain] at h
  split at h
  · exact absurd h (by simp)
  · rename_i hd rest hheq
    have hb := getNetpbmHeader_maxval bytes hd rest hheq
    try dsimp only at h
    split at h
    · rename_i hlt
      split at h
      · exact absurd h (by simp)
      · simp only [Option.some_inj, Prod.mk.injEq] at h
        obtain ⟨rfl, rfl⟩ := h
        exact Or.inl ⟨_, _, _, _, rfl, by omega, hlt⟩
    · rename_i hlt
      split at h
      · exact absurd h (by simp)
      · simp only [Option.some_inj, Prod.mk.injEq] at h
        obtain ⟨rfl, rfl⟩ := h
        exact Or.inr ⟨_, _, _, _, rfl, by omega, by omega⟩

/-- A successful raw PPM decode yields an 8-bit color image with maximum in
[1, 255] or a 16-bit one with maximum in [256, 65535]. -/
theorem decodePPMraw_shape (bytes : List Nat) (img : NImage) (cmts : List (List Nat))
    (h : decodePPMraw bytes = some (img, cmts)) :
    (∃ w ht m pix, img = .rgbM w ht m pix ∧ 1 ≤ m ∧ m < 256) ∨
    (∃ w ht m pix, img = .rgbM64 w ht m pix ∧ 256 ≤ m ∧ m ≤ 65535) := by
  rw [decodePPMraw] at h
  split at h
  · exact absurd h (by simp)
  · rename_i hd rest hheq
    have hb := getNetpbmHeader_maxval bytes hd rest hheq
    try dsimp only at h
    split at h
    · rename_i hlt
      split at h
      · exact absurd h (by simp)
      · simp only [Option.some_inj, Prod.mk.injEq] at h
        obtain ⟨rfl, rfl⟩ := h
        exact Or.inl ⟨_, _, _, _, rfl, by omega, hlt⟩
    · rename_i hlt
      split at h
      · exact absurd h (by simp)
      · simp only [Option.some_inj, Prod.mk.injEq] at h
        obtain ⟨rfl, rfl⟩ := h
        exact Or.inr ⟨_, _, _, _, rfl, by omega, by omega⟩

/-- A successful plain PPM decode yields an 8-bit color image with maximum
in [1, 255] or a 16-bit one with maximum in [256, 65535]. -/
theorem decodePPMplain_shape (bytes : List Nat) (img : NImage) (cmts : List (List Nat))
    (h : decodePPMplain bytes = some (img, cmts)) :
    (∃ w ht m pix, img = .rgbM w ht m pix ∧ 1 ≤ m ∧ m < 256) ∨
    (∃ w ht m pix, img = .rgbM64 w ht m pix ∧ 256 ≤ m ∧ m ≤ 65535) := by
  rw [decodePPMplain] at h
  split at h
  · exact absurd h (by simp)
  · rename_i hd rest hheq
    have hb := getNetpbmHeader_maxval bytes hd rest hheq
    try dsimp only at h
    split at h
    · rename_i hlt
      split at h
      · exact absurd h (by simp)
      · simp only [Option.some_inj, Prod.mk.injEq] at h
        obtain ⟨rfl, rfl⟩ := h
        exact Or.inl ⟨_, _, _, _, rfl, by omega, hlt⟩
    · rename_i hlt
      split at h
      · exact absurd h (by simp)
      · simp only [Option.some_inj, Prod.mk.injEq] at h
        obtain ⟨rfl, rfl⟩ := h
        exact Or.inr ⟨_, _, _, _, rfl, by omega, by omega⟩

/-- A successful raw PBM decode yields a `BW` image. -/
theorem decodePBMraw_shape (bytes : List Nat) (img : NImage) (cmts : List (List Nat))
    (h : decodePBMraw bytes = some (img, cmts)) :
    ∃ w ht pix, img = .bw w ht pix := by
  rw [decodePBMraw] at h
  split at h
  · exact absurd h (by simp)
  · rename_i hd rest hheq
    try dsimp only at h
    split at h
    · exact absurd h (by simp)
    · split at h
      · exact absurd h (by simp)
      · simp only [Option.some_inj, Prod.mk.injEq] at h
        obtain ⟨rfl, rfl⟩ := h
        exact ⟨_, _, _, rfl⟩

/-- A successful plain PBM decode yields a `BW` image. -/
theorem decodePBMplain_shape (bytes : List Nat) (img : NImage) (cmts : List (List Nat))
    (h : decodePBMplain bytes = some (img, cmts)) :
    ∃ w ht pix, img = .bw w ht pix := by
  rw [decodePBMplain] at h
  split at h
  · exact absurd h (by simp)
  · rename_i hd rest hheq
    split at h
    · exact absurd h (by simp)
    · simp only [Option.some_inj, Prod.mk.injEq] at h
      obtain ⟨rfl, rfl⟩ := h
      exact ⟨_, _, _, rfl⟩

/-- The images the PBM/PGM/PPM decoders (magic `'1'`–`'6'`) can produce:
a `BW`, an 8-bit type with maximum below 256, or a 16-bit type with
maximum in [256, 65535]. -/
theorem magicDecoder_shape (b1 : Nat) (bytes : List Nat) (img : NImage)
    (cmts : List (List Nat)) (hb1 : 49 ≤ b1) (hb6 : b1 ≤ 54)
    (hdec : magicDecoder b1 bytes = some (img, cmts)) :
    (∃ w h pix, img = .bw w h pix) ∨
    (∃ w h m pix, img = .grayM w h m pix ∧ m < 256) ∨
    (∃ w h m pix, img = .grayM32 w h m pix ∧ 256 ≤ m ∧ m ≤ 65535) ∨
    (∃ w h m pix, img = .rgbM w h m pix ∧ m < 256) ∨
    (∃ w h m pix, img = .rgbM64 w h m pix ∧ 256 ≤ m ∧ m ≤ 65535) := by
  interval_cases b1 <;> simp only [magicDecoder, if_true, if_false] at hdec
  · obtain ⟨w, h, p, e⟩ := decodePBMplain_shape _ _ _ hdec
    exact Or.inl ⟨w, h, p, e⟩
  · rcases decodePGMplain_shape _ _ _ (by simpa using hdec) with
      ⟨w, h, m, p, e, h1, h2⟩ | ⟨w, h, m, p, e, h1, h2⟩
    · exact Or.inr (Or.inl ⟨w, h, m, p, e, h2⟩)
    · exact Or.inr (Or.inr (Or.inl ⟨w, h, m, p, e, h1, h2⟩))
  · rcases decodePPMplain_shape _ _ _ (by simpa using hdec) with
      ⟨w, h, m, p, e, h1, h2⟩ | ⟨w, h, m, p, e, h1, h2⟩
    · exact Or.inr (Or.inr (Or.inr (Or.inl ⟨w, h, m, p, e, h2⟩)))
    · exact Or.inr (Or.inr (Or.inr (Or.inr ⟨w, h, m, p, e, h1, h2⟩)))
  · obtain ⟨w, h, p, e⟩ := decodePBMraw_shape _ _ _ (by simpa using hdec)
    exact Or.inl ⟨w, h, p, e⟩
  · rcases decodePGMraw_shape _ _ _ (by simpa using hdec) with
      ⟨w, h, m, p, e, h1, h2⟩ | ⟨w, h, m, p, e, h1, h2⟩
    · exact Or.inr (Or.inl ⟨w, h, m, p, e, h2⟩)
    · exact Or.inr (Or.inr (Or.inl ⟨w, h, m, p, e, h1, h2⟩))
  · rcases decodePPMraw_shape _ _ _ (by simpa using hdec) with
      ⟨w, h, m, p, e, h1, h2⟩ | ⟨w, h, m, p, e, h1, h2⟩
    · exact Or.inr (Or.inr (Or.inr (Or.inl ⟨w, h, m, p, e, h2⟩)))
    · exact Or.inr (Or.inr (Or.inr (Or.inr ⟨w, h, m, p, e, h1, h2⟩)))

/-! ## C9: a PAM target makes the promotion loop panic -/

/-- C9: for every PBM, PGM or PPM input (magic `'1'`–`'6'`) whose per-magic
decode succeeds, `Decode` with `Exact=false` and `Target=PAM` never returns
an error value (nor an image): the promotion loop promotes at most up to
PPM, finds PPM still below PAM, and panics with "Attempted to promote a
format other than PBM or PGM". -/
theorem C9_pam_target_panics (b1 : Nat) (rest : List Nat) (o : DecodeOpts)
    (img : NImage) (cmts : List (List Nat))
    (hb1 : 49 ≤ b1) (hb6 : b1 ≤ 54) (hex : o.exact = false) (ht : o.target = .PAM)
    (hpm : o.pbmMaxValue < 65536)
    (hdec : magicDecoder b1 (80 :: b1 :: rest) = some (img, cmts)) :
    netpbmDecode (80 :: b1 :: rest) (some o) =
      .panicked "Attempted to promote a format other than PBM or PGM" := by
  rw [netpbmDecode_dispatch b1 rest o hb1 (by omega) hex, hdec]
  have hT := defaultOpts_target o
  rw [ht] at hT
  have hPM : (defaultOpts (some o)).pbmMaxValue < 65536 ∧
      1 ≤ (defaultOpts (some o)).pbmMaxValue := by
    simp only [defaultOpts, Option.getD_some]
    split <;> simp_all <;> omega
  simp only [afterDecode, hT]
  rw [if_neg (by decide)]
  rcases magicDecoder_shape b1 (80 :: b1 :: rest) img cmts hb1 hb6 hdec with
    ⟨w, h, pix, rfl⟩ | ⟨w, h, m, pix, rfl, hm⟩ | ⟨w, h, m, pix, rfl, hm1, hm2⟩ |
    ⟨w, h, m, pix, rfl, hm⟩ | ⟨w, h, m, pix, rfl, hm1, hm2⟩
  · rw [if_neg (by simp [NImage.format, NFormat.val])]
    by_cases hsmall : (defaultOpts (some o)).pbmMaxValue < 256
    · simp [promoteLoop, NImage.format, NFormat.val, hsmall]
    · have : ¬ (defaultOpts (some o)).pbmMaxValue % 65536 < 256 := by
        rw [Nat.mod_eq_of_lt hPM.1]; omega
      simp [promoteLoop, NImage.format, NFormat.val, hsmall, this]
  · rw [if_neg (by simp [NImage.format, NFormat.val])]
    simp [promoteLoop, NImage.format, NFormat.val]
  · rw [if_neg (by simp [NImage.format, NFormat.val])]
    have : ¬ m % 65536 < 256 := by rw [Nat.mod_eq_of_lt (by omega)]; omega
    simp [promoteLoop, NImage.format, NFormat.val, this]
  · rw [if_neg (by simp [NImage.format, NFormat.val])]
    simp [promoteLoop, NImage.format, NFormat.val]
  · rw [if_neg (by simp [NImage.format, NFormat.val])]
    simp [promoteLoop, NImage.format, NFormat.val]

/-- Witness for C9: the raw PBM file `P4\n3 2\n` + 2 data bytes decoded
with `Target=PAM`, `Exact=false` panics in the promotion loop. -/
theorem C9_pam_target_panics_witness :
    netpbmDecode [80, 52, 10, 51, 32, 50, 10, 64, 160] (some ⟨.PAM, false, 0⟩) =
      .panicked "Attempted to promote a format other than PBM or PGM" :=
  C9_pam_target_panics 52 [10, 51, 32, 50, 10, 64, 160] ⟨.PAM, false, 0⟩
    (.bw 3 2 [0, 1, 0, 1, 0, 1]) [] (by decide) (by decide) rfl rfl (by decide)
    (by decide)

theorem bitsOfByte_le_one (b : Nat) : ∀ x ∈ bitsOfByte b, x ≤ 1 := by
  simp only [bitsOfByte, List.mem_cons, List.mem_singleton]
  intro x hx
  rcases hx with rfl | rfl | rfl | rfl | rfl | rfl | rfl | rfl | h
  all_goals first | exact Nat.le_of_lt_succ (Nat.mod_lt _ (by norm_num)) | simp_all

theorem procBits_le_one (width : Nat) (bl : List Nat) (bn rem : Nat)
    (hbl : ∀ x ∈ bl, x ≤ 1) : ∀ x ∈ (procBits width bl bn rem).1, x ≤ 1 := by
  induction bl generalizing bn rem with
  | nil => simp [procBits]
  | cons bit rest ih =>
    intro x hx
    simp only [procBits] at hx
    split at hx
    · simp at hx
      exact hx ▸ hbl bit (by simp)
    · split at hx
      · simp at hx
        exact hx ▸ hbl bit (by simp)
      · rcases hh : procBits width rest (bn + 1) (rem - 1) with ⟨l, bn2, r2, f2⟩
        rw [hh] at hx
        simp at hx
        rcases hx with rfl | hx
        · exact hbl x (by simp)
        · exact ih (bn + 1) (rem - 1) (fun y hy => hbl y (List.mem_cons_of_mem _ hy)) x
            (by rw [hh]; exact hx)

theorem pbmScan_le_one (width : Nat) (bytes : List Nat) (bn rem : Nat)
    (bits : List Nat) (h : pbmScan width bytes bn rem = some bits) :
    ∀ x ∈ bits, x ≤ 1 := by
  induction bytes generalizing bn rem bits with
  | nil =>
    rw [pbmScan] at h
    split at h
    · simp only [Option.some_inj] at h
      subst h
      simp
    · simp at h
  | cons byte rest ih =>
    rw [pbmScan] at h
    split at h
    · simp_all
    · rcases hh : procBits width (bitsOfByte byte) bn rem with ⟨bl, bn2, rem2, done⟩
      rw [hh] at h
      dsimp only at h
      have hbl : ∀ x ∈ bl, x ≤ 1 := by
        have := procBits_le_one width (bitsOfByte byte) bn rem (bitsOfByte_le_one byte)
        rw [hh] at this
        exact this
      split at h
      · rw [Option.some_inj] at h
        exact h ▸ hbl
      · split at h
        · exact absurd h (by simp)
        · rename_i more hmore
          rw [Option.some_inj] at h
          subst h
          intro x hx
          rcases List.mem_append.mp hx with h1 | h1
          · exact hbl x h1
          · exact ih bn2 rem2 more hmore x h1

theorem pbmPlainBits_le_one (t : Nat) (bytes : List Nat) (bits : List Nat)
    (h : pbmPlainBits t bytes = some bits) : ∀ x ∈ bits, x ≤ 1 := by
  induction bytes generalizing t bits with
  | nil =>
    rw [pbmPlainBits_nil] at h
    split at h <;> simp_all
  | cons b bs ih =>
    rw [pbmPlainBits_cons] at h
    split at h
    · simp_all
    · split at h
      · exact ih t bits h
      · split at h
        · rename_i hb01 hbits
          split at h
          · simp_all
          · rename_i bits0 hbits0
            simp only [Option.some_inj] at h
            subst h
            intro x hx
            rcases List.mem_cons.mp hx with rfl | h1
            · rw [decDigit_eq]; omega
            · exact ih (t - 1) bits0 hbits0 x h1
        · simp_all

/-- Bits decoded from a PBM file (raw or plain) are 0 or 1. -/
theorem decodePBM_bits (b1 : Nat) (bytes : List Nat) (w h : Nat) (pix : List Nat)
    (cmts : List (List Nat)) (hb : b1 = 49 ∨ b1 = 52)
    (hdec : magicDecoder b1 bytes = some (.bw w h pix, cmts)) :
    ∀ x ∈ pix, x ≤ 1 := by
  rcases hb with rfl | rfl
  · have hdec2 : decodePBMplain bytes = some (.bw w h pix, cmts) := by
      simpa [magicDecoder] using hdec
    clear hdec
    rename' hdec2 => hdec
    rw [decodePBMplain] at hdec
    split at hdec
    · simp_all
    · split at hdec
      · simp_all
      · rename_i bits hbits
        simp only [Option.some_inj, Prod.mk.injEq, NImage.bw.injEq] at hdec
        obtain ⟨⟨rfl, rfl, rfl⟩, rfl⟩ := hdec
        exact pbmPlainBits_le_one _ _ _ hbits
  · have hdec2 : decodePBMraw bytes = some (.bw w h pix, cmts) := by
      simpa [magicDecoder] using hdec
    clear hdec
    rename' hdec2 => hdec
    rw [decodePBMraw] at hdec
    split at hdec
    · simp_all
    · try dsimp only at hdec
      split at hdec
      · simp_all
      · split at hdec
        · simp_all
        · rename_i bits hbits
          simp only [Option.some_inj, Prod.mk.injEq, NImage.bw.injEq] at hdec
          obtain ⟨⟨rfl, rfl, rfl⟩, rfl⟩ := hdec
          exact pbmScan_le_one _ _ _ _ _ hbits

/-! ## C2: bitmap promotion with maximum-value override 42 -/

/-- C2 counterexample: decoding the raw bitmap `P4\n3 2\n` (bits
0,1,0 / 1,0,1) with `Target=PGM`, `PBMMaxValue=42`, `Exact=false`.  The
originally-white pixels (stored bit 0) get sample value 42 — not 0 as the
claim's prose says — and the black pixels (bit 1) get 0; the image the
claim predicts (white ↦ 0, black ↦ 42) is not returned. -/
theorem C2_counterexample :
    decodePBMraw [80, 52, 10, 51, 32, 50, 10, 64, 160] =
      some (.bw 3 2 [0, 1, 0, 1, 0, 1], []) ∧
    netpbmDecode [80, 52, 10, 51, 32, 50, 10, 64, 160] (some ⟨.PGM, false, 42⟩) =
      .ok (.grayM 3 2 42 [42, 0, 42, 0, 42, 0]) [] ∧
    netpbmDecode [80, 52, 10, 51, 32, 50, 10, 64, 160] (some ⟨.PGM, false, 42⟩) ≠
      .ok (.grayM 3 2 42 [0, 42, 0, 42, 0, 42]) [] := by
  refine ⟨by decide, by decide, by decide⟩

/-- C2 (amended): decoding a bitmap (magic `'1'` or `'4'`) with
`Target=PGM`, `PBMMaxValue=42`, `Exact=false` yields an 8-bit grayscale
image with maximum value 42 whose samples are `(1 - old) * 42`: every
originally-white pixel (stored bit 0) gets sample value 42 and every
originally-black pixel (stored bit 1) gets sample value 0. -/
theorem C2_bitmap_promotion (b1 : Nat) (rest : List Nat) (w h : Nat)
    (pix : List Nat) (cmts : List (List Nat)) (hb : b1 = 49 ∨ b1 = 52)
    (hdec : magicDecoder b1 (80 :: b1 :: rest) = some (.bw w h pix, cmts)) :
    netpbmDecode (80 :: b1 :: rest) (some ⟨.PGM, false, 42⟩) =
      .ok (.grayM w h 42 (pix.map (fun b => (1 - b) * 42))) cmts ∧
    (NImage.grayM w h 42 (pix.map (fun b => (1 - b) * 42))).maxValue = 42 ∧
    ∀ b ∈ pix, (1 - b) * 42 = if b = 0 then 42 else 0 := by
  have hbits := decodePBM_bits b1 (80 :: b1 :: rest) w h pix cmts hb hdec
  refine ⟨?_, by simp [NImage.maxValue], ?_⟩
  · rw [netpbmDecode_dispatch b1 rest ⟨.PGM, false, 42⟩ (by omega) (by omega) rfl, hdec]
    have hdo : defaultOpts (some ⟨.PGM, false, 42⟩) = ⟨.PGM, false, 42⟩ := by decide
    rw [hdo]
    simp only [afterDecode]
    rw [if_neg (by decide), if_neg (by simp [NImage.format, NFormat.val])]
    have hmap : promoteToGrayMpix 42 pix = pix.map (fun b => (1 - b) * 42) := by
      unfold promoteToGrayMpix
      apply List.map_congr_left
      intro b hbmem
      have hble := hbits b hbmem
      rw [bwGray_eq]
      interval_cases b <;> decide
    simp [promoteLoop, NImage.format, NFormat.val, hmap]
  · intro b hbmem
    have := hbits b hbmem
    interval_cases b <;> decide

/-- Witness for C2 at the concrete bitmap of the counterexample. -/
theorem C2_bitmap_promotion_witness :
    netpbmDecode (80 :: 52 :: [10, 51, 32, 50, 10, 64, 160]) (some ⟨.PGM, false, 42⟩) =
      .ok (.grayM 3 2 42 ([0, 1, 0, 1, 0, 1].map (fun b => (1 - b) * 42))) [] ∧
    (NImage.grayM 3 2 42 ([0, 1, 0, 1, 0, 1].map (fun b => (1 - b) * 42))).maxValue = 42 ∧
    ∀ b ∈ [0, 1, 0, 1, 0, 1], (1 - b) * 42 = if b = 0 then 42 else 0 :=
  C2_bitmap_promotion 52 [10, 51, 32, 50, 10, 64, 160] 3 2 [0, 1, 0, 1, 0, 1] []
    (Or.inr rfl) (by decide)

/-- A successfully parsed PAM header means the input began with the magic
`P7` and a whitespace byte. -/
theorem getPamHeader_magic (bytes : List Nat) (h : PamHeader) (rest : List Nat)
    (hp : getPamHeader bytes = some (h, rest)) :
    ∃ s tail, bytes = 80 :: 55 :: s :: tail ∧ isSpace s = true := by
  rcases bytes with _ | ⟨p, _ | ⟨m, _ | ⟨s, tail⟩⟩⟩ <;> simp only [getPamHeader] at hp
  · exact absurd hp (by simp)
  · exact absurd hp (by simp)
  · exact absurd hp (by simp)
  · split at hp
    · rename_i hc
      exact ⟨s, tail, by rw [hc.1, hc.2.1], hc.2.2⟩
    · exact absurd hp (by simp)

/-! ## C6: PAM RGB_ALPHA decoding and the color target -/

/-- C6 counterexample: the 1×1 `RGB_ALPHA`, `DEPTH 4`, `MAXVAL 255` PAM
file with pixel bytes 1,2,3,4 decoded with `Target=PPM` (color),
`Exact=false`.  The call succeeds and returns the image with its alpha
byte intact — 4 channels, not the 3-channel alpha-stripped image the claim
describes. -/
theorem C6_counterexample :
    netpbmDecode ([80, 55, 10] ++
      [87, 73, 68, 84, 72, 32, 49, 10] ++
      [72, 69, 73, 71, 72, 84, 32, 49, 10] ++
      [68, 69, 80, 84, 72, 32, 52, 10] ++
      [77, 65, 88, 86, 65, 76, 32, 50, 53, 53, 10] ++
      [84, 85, 80, 76, 84, 89, 80, 69, 32, 82, 71, 66, 95, 65, 76, 80, 72, 65, 10] ++
      [69, 78, 68, 72, 68, 82, 10] ++ [1, 2, 3, 4]) (some ⟨.PPM, false, 0⟩) =
      .ok (.rgbAM 1 1 255 [1, 2, 3, 4]) [] ∧
    (NImage.rgbAM 1 1 255 [1, 2, 3, 4]).channels = 4 ∧
    ¬ (NImage.rgbAM 1 1 255 [1, 2, 3, 4]).channels = 3 := by
  refine ⟨by decide, by decide, by decide⟩

/-- C6 (amended): a PAM file whose header declares `TUPLTYPE RGB_ALPHA`,
`DEPTH 4`, `MAXVAL 255` decodes each pixel from 4 consecutive bytes
(R,G,B,A); decoding it with `Target=PPM` (color) and `Exact=false`
succeeds and returns the `RGBAM` image unchanged — it reports format PPM
but keeps all 4 channels; the alpha byte is not stripped. -/
theorem C6_pam_rgb_alpha (bytes : List Nat) (w h : Nat) (cmts : List (List Nat))
    (rest : List Nat)
    (hhdr : getPamHeader bytes =
      some (⟨Int.ofNat w, Int.ofNat h, 4, 255, strRGB_ALPHA, cmts⟩, rest))
    (hlen : 4 * (w * h) ≤ rest.length) :
    decodePAM bytes = some (.rgbAM w h 255 (rest.take (4 * (w * h))), cmts) ∧
    (∀ i, i < w * h →
      ((rest.take (4 * (w * h))).drop (4 * i)).take 4 = (rest.drop (4 * i)).take 4) ∧
    (NImage.rgbAM w h 255 (rest.take (4 * (w * h)))).format = .PPM ∧
    (NImage.rgbAM w h 255 (rest.take (4 * (w * h)))).channels = 4 ∧
    netpbmDecode bytes (some ⟨.PPM, false, 0⟩) =
      .ok (.rgbAM w h 255 (rest.take (4 * (w * h)))) cmts := by
  have hdec : decodePAM bytes = some (.rgbAM w h 255 (rest.take (4 * (w * h))), cmts) := by
    rw [decodePAM, hhdr]
    simp only [eq_self_iff_true, if_true,
      show ∀ n : Nat, (Int.ofNat n).natAbs = n from fun n => rfl,
      show ((255 : Int)).toNat = 255 from rfl]
    rw [if_pos (by norm_num : (255 : Nat) < 256)]
    rw [if_neg (by omega)]
  refine ⟨hdec, ?_, rfl, rfl, ?_⟩
  · intro i hi
    rw [List.drop_take]
    rw [List.take_take]
    congr 1
    omega
  · obtain ⟨s, tail, rfl, hs⟩ := getPamHeader_magic bytes _ _ hhdr
    have hdo : defaultOpts (some ⟨.PPM, false, 0⟩) = ⟨.PPM, false, 255⟩ := by decide
    simp only [netpbmDecode]
    rw [if_neg (by decide)]
    rw [hdo]
    norm_num
    rw [hdec]
    simp [afterDecode, promoteLoop, NImage.format, NFormat.val]

/-- Witness for C6 at the concrete 1×1 RGB_ALPHA PAM file. -/
theorem C6_pam_rgb_alpha_witness :
    decodePAM ([80, 55, 10] ++
      [87, 73, 68, 84, 72, 32, 49, 10] ++
      [72, 69, 73, 71, 72, 84, 32, 49, 10] ++
      [68, 69, 80, 84, 72, 32, 52, 10] ++
      [77, 65, 88, 86, 65, 76, 32, 50, 53, 53, 10] ++
      [84, 85, 80, 76, 84, 89, 80, 69, 32, 82, 71, 66, 95, 65, 76, 80, 72, 65, 10] ++
      [69, 78, 68, 72, 68, 82, 10] ++ [1, 2, 3, 4]) =
      some (.rgbAM 1 1 255 ([1, 2, 3, 4].take (4 * (1 * 1))), []) ∧
    (∀ i, i < 1 * 1 →
      (([1, 2, 3, 4].take (4 * (1 * 1))).drop (4 * i)).take 4 =
        (([1, 2, 3, 4] : List Nat).drop (4 * i)).take 4) ∧
    (NImage.rgbAM 1 1 255 ([1, 2, 3, 4].take (4 * (1 * 1)))).format = .PPM ∧
    (NImage.rgbAM 1 1 255 ([1, 2, 3, 4].take (4 * (1 * 1)))).channels = 4 ∧
    netpbmDecode ([80, 55, 10] ++
      [87, 73, 68, 84, 72, 32, 49, 10] ++
      [72, 69, 73, 71, 72, 84, 32, 49, 10] ++
      [68, 69, 80, 84, 72, 32, 52, 10] ++
      [77, 65, 88, 86, 65, 76, 32, 50, 53, 53, 10] ++
      [84, 85, 80, 76, 84, 89, 80, 69, 32, 82, 71, 66, 95, 65, 76, 80, 72, 65, 10] ++
      [69, 78, 68, 72, 68, 82, 10] ++ [1, 2, 3, 4]) (some ⟨.PPM, false, 0⟩) =
      .ok (.rgbAM 1 1 255 ([1, 2, 3, 4].take (4 * (1 * 1)))) [] :=
  C6_pam_rgb_alpha _ 1 1 [] [1, 2, 3, 4] (by decide) (by decide)

theorem getASCIIData8_bound (maxVal cnt : Nat) (bytes vals rest : List Nat)
    (h : getASCIIData8 maxVal cnt bytes = some (vals, rest)) :
    ∀ v ∈ vals, v ≤ maxVal := by
  induction cnt generalizing bytes vals rest with
  | zero =>
    rw [getASCIIData8_zero] at h
    simp only [Option.some_inj, Prod.mk.injEq] at h
    obtain ⟨rfl, rfl⟩ := h
    simp
  | succ cnt ih =>
    rw [getASCIIData8_succ] at h
    split at h
    · simp at h
    · rename_i v r hv
      split at h
      · simp at h
      · rename_i hle
        split at h
        · simp at h
        · rename_i vals0 rest0 hrec
          simp only [Option.some_inj, Prod.mk.injEq] at h
          obtain ⟨rfl, rfl⟩ := h
          intro x hx
          rcases List.mem_cons.mp hx with rfl | hx
          · omega
          · exact ih _ _ _ hrec x hx

theorem getASCIIData16_bound (maxVal cnt : Nat) (bytes buf rest : List Nat)
    (hmv : maxVal ≤ 65535)
    (h : getASCIIData16 maxVal cnt bytes = some (buf, rest)) :
    ∀ v ∈ chunk2Vals buf, v ≤ maxVal := by
  induction cnt generalizing bytes buf rest with
  | zero =>
    rw [getASCIIData16_zero] at h
    simp only [Option.some_inj, Prod.mk.injEq] at h
    obtain ⟨rfl, rfl⟩ := h
    simp [chunk2Vals]
  | succ cnt ih =>
    rw [getASCIIData16_succ] at h
    split at h
    · simp at h
    · rename_i v r hv
      split at h
      · simp at h
      · rename_i hle
        split at h
        · simp at h
        · rename_i buf0 rest0 hrec
          simp only [Option.some_inj, Prod.mk.injEq] at h
          obtain ⟨rfl, rfl⟩ := h
          intro x hx
          rw [chunk2Vals] at hx
          rcases List.mem_cons.mp hx with rfl | hx
          · omega
          · exact ih _ _ _ hrec x hx

/-- A successfully parsed PAM header has its maximum value in [1, 65535]
(`GetPamHeader` rejects anything else). -/
theorem getPamHeader_maxval_range (bytes : List Nat) (h : PamHeader) (rest : List Nat)
    (hp : getPamHeader bytes = some (h, rest)) :
    1 ≤ h.maxval ∧ h.maxval ≤ 65535 := by
  rcases bytes with _ | ⟨p, _ | ⟨m, _ | ⟨s, tail⟩⟩⟩ <;> simp only [getPamHeader] at hp
  · exact absurd hp (by simp)
  · exact absurd hp (by simp)
  · exact absurd hp (by simp)
  · split at hp
    · split at hp
      · exact absurd hp (by simp)
      · split at hp
        · rename_i hmv
          rw [Option.some_inj] at hp
          obtain ⟨rfl, rfl⟩ := Prod.mk.injEq .. ▸ (Prod.ext_iff.mp hp)
          exact hmv
        · exact absurd hp (by simp)
    · exact absurd hp (by simp)

/-! ## C3: the sample range invariant -/

/-- C3 counterexample: the raw PGM file `P5\n1 1\n100\n` with data byte
200 decodes successfully (default options), yet its single sample value
200 exceeds the image's maximum value 100 — raw decodes do not range-check
samples. -/
theorem C3_counterexample :
    netpbmDecode [80, 53, 10, 49, 32, 49, 10, 49, 48, 48, 10, 200] none =
      .ok (.grayM 1 1 100 [200]) [] ∧
    ¬ (∀ s ∈ (NImage.grayM 1 1 100 [200]).sampleValues,
        s ≤ (NImage.grayM 1 1 100 [200]).maxValue) := by
  refine ⟨by decide, by decide⟩

/-- C3 (amended): every decoded image's maximum value lies in [1, 65535] —
on all seven decode paths (plain and raw PBM, PGM and PPM, and PAM).
Samples lie in [0, maxval] for the plain (ASCII) grayscale and color
decodes — `GetASCIIData` rejects out-of-range values — and for both bitmap
decodes, whose samples are bits; the raw grayscale, raw color and PAM
decodes guarantee only the maxval bound, their sample bytes being copied
unchecked (see the counterexample). -/
theorem C3_range_invariant :
    (∀ bytes img cmts, decodePGMplain bytes = some (img, cmts) →
      (∀ s ∈ NImage.sampleValues img, s ≤ NImage.maxValue img) ∧
      1 ≤ NImage.maxValue img ∧ NImage.maxValue img ≤ 65535) ∧
    (∀ bytes img cmts, decodePBMplain bytes = some (img, cmts) →
      (∀ s ∈ NImage.sampleValues img, s ≤ NImage.maxValue img) ∧
      1 ≤ NImage.maxValue img ∧ NImage.maxValue img ≤ 65535) ∧
    (∀ bytes img cmts, decodePBMraw bytes = some (img, cmts) →
      (∀ s ∈ NImage.sampleValues img, s ≤ NImage.maxValue img) ∧
      1 ≤ NImage.maxValue img ∧ NImage.maxValue img ≤ 65535) ∧
    (∀ bytes img cmts, decodePGMraw bytes = some (img, cmts) →
      1 ≤ NImage.maxValue img ∧ NImage.maxValue img ≤ 65535) ∧
    (∀ bytes img cmts, decodePPMplain bytes = some (img, cmts) →
      (∀ s ∈ NImage.sampleValues img, s ≤ NImage.maxValue img) ∧
      1 ≤ NImage.maxValue img ∧ NImage.maxValue img ≤ 65535) ∧
    (∀ bytes img cmts, decodePPMraw bytes = some (img, cmts) →
      1 ≤ NImage.maxValue img ∧ NImage.maxValue img ≤ 65535) ∧
    (∀ bytes img cmts, decodePAM bytes = some (img, cmts) →
      1 ≤ NImage.maxValue img ∧ NImage.maxValue img ≤ 65535) := by
  refine ⟨?_, ?_, ?_, ?_, ?_, ?_, ?_⟩
  · intro bytes img cmts h
    have hshape := decodePGMplain_shape bytes img cmts h
    rw [decodePGMplain] at h
    split at h
    · exact absurd h (by simp)
    · rename_i hd rest hheq
      have hb := getNetpbmHeader_maxval bytes hd rest hheq
      split at h
      · rename_i hlt
        split at h
        · exact absurd h (by simp)
        · rename_i vals rest2 hvals
          simp only [Option.some_inj, Prod.mk.injEq] at h
          obtain ⟨rfl, rfl⟩ := h
          have hbound := getASCIIData8_bound _ _ _ _ _ hvals
          refine ⟨?_, ?_, ?_⟩
          · intro s hs
            simp only [NImage.sampleValues] at hs
            simp only [NImage.maxValue]
            rw [Nat.mod_eq_of_lt hlt]
            exact hbound s hs
          · simp only [NImage.maxValue]
            rw [Nat.mod_eq_of_lt hlt]
            omega
          · simp only [NImage.maxValue]
            rw [Nat.mod_eq_of_lt hlt]
            omega
      · rename_i hlt
        split at h
        · exact absurd h (by simp)
        · rename_i buf rest2 hbuf
          simp only [Option.some_inj, Prod.mk.injEq] at h
          obtain ⟨rfl, rfl⟩ := h
          have hbound := getASCIIData16_bound _ _ _ _ _ (by omega) hbuf
          have hmod : hd.maxval % 65536 = hd.maxval := Nat.mod_eq_of_lt (by omega)
          refine ⟨?_, ?_, ?_⟩
          · intro s hs
            simp only [NImage.sampleValues] at hs
            simp only [NImage.maxValue]
            rw [hmod]
            exact hbound s hs
          · simp only [NImage.maxValue]; omega
          · simp only [NImage.maxValue]; omega
  · intro bytes img cmts h
    obtain ⟨w, ht, pix, rfl⟩ := decodePBMplain_shape bytes img cmts h
    have hbits := decodePBM_bits 49 bytes w ht pix cmts (Or.inl rfl)
      (by simpa [magicDecoder] using h)
    exact ⟨fun s hs => hbits s hs, by simp [NImage.maxValue], by simp [NImage.maxValue]⟩
  · intro bytes img cmts h
    obtain ⟨w, ht, pix, rfl⟩ := decodePBMraw_shape bytes img cmts h
    have hbits := decodePBM_bits 52 bytes w ht pix cmts (Or.inr rfl)
      (by simpa [magicDecoder] using h)
    exact ⟨fun s hs => hbits s hs, by simp [NImage.maxValue], by simp [NImage.maxValue]⟩
  · intro bytes img cmts h
    rcases decodePGMraw_shape bytes img cmts h with
      ⟨w, ht, m, pix, rfl, h1, h2⟩ | ⟨w, ht, m, pix, rfl, h1, h2⟩
    · simp only [NImage.maxValue]
      rw [Nat.mod_eq_of_lt h2]
      omega
    · simp only [NImage.maxValue]
      rw [Nat.mod_eq_of_lt (by omega)]
      omega
  · intro bytes img cmts h
    rw [decodePPMplain] at h
    split at h
    · exact absurd h (by simp)
    · rename_i hd rest hheq
      have hb := getNetpbmHeader_maxval bytes hd rest hheq
      split at h
      · rename_i hlt
        split at h
        · exact absurd h (by simp)
        · rename_i vals rest2 hvals
          simp only [Option.some_inj, Prod.mk.injEq] at h
          obtain ⟨rfl, rfl⟩ := h
          have hbound := getASCIIData8_bound _ _ _ _ _ hvals
          refine ⟨?_, ?_, ?_⟩
          · intro s hs
            simp only [NImage.sampleValues] at hs
            simp only [NImage.maxValue]
            rw [Nat.mod_eq_of_lt hlt]
            exact hbound s hs
          · simp only [NImage.maxValue]
            rw [Nat.mod_eq_of_lt hlt]
            omega
          · simp only [NImage.maxValue]
            rw [Nat.mod_eq_of_lt hlt]
            omega
      · rename_i hlt
        split at h
        · exact absurd h (by simp)
        · rename_i buf rest2 hbuf
          simp only [Option.some_inj, Prod.mk.injEq] at h
          obtain ⟨rfl, rfl⟩ := h
          have hbound := getASCIIData16_bound _ _ _ _ _ (by omega) hbuf
          have hmod : hd.maxval % 65536 = hd.maxval := Nat.mod_eq_of_lt (by omega)
          refine ⟨?_, ?_, ?_⟩
          · intro s hs
            simp only [NImage.sampleValues] at hs
            simp only [NImage.maxValue]
            rw [hmod]
            exact hbound s hs
          · simp only [NImage.maxValue]; omega
          · simp only [NImage.maxValue]; omega
  · intro bytes img cmts h
    rcases decodePPMraw_shape bytes img cmts h with
      ⟨w, ht, m, pix, rfl, h1, h2⟩ | ⟨w, ht, m, pix, rfl, h1, h2⟩
    · simp only [NImage.maxValue]
      rw [Nat.mod_eq_of_lt h2]
      omega
    · simp only [NImage.maxValue]
      rw [Nat.mod_eq_of_lt (by omega)]
      omega
  · intro bytes img cmts h
    rw [decodePAM] at h
    split at h
    · exact absurd h (by simp)
    · rename_i hd rest hheq
      have hb := getPamHeader_maxval_range bytes hd rest hheq
      dsimp only at h
      repeat' split at h
      all_goals first
        | (simp only [Option.some_inj, Prod.mk.injEq] at h
           obtain ⟨rfl, rfl⟩ := h
           simp only [NImage.maxValue]
           omega)
        | exact absurd h (by simp)

/-- Witness for C3: the plain PGM file `P2\n2 1\n255\n17 230\n`. -/
theorem C3_range_invariant_witness :
    (∀ s ∈ NImage.sampleValues (.grayM 2 1 255 [17, 230]),
      s ≤ NImage.maxValue (.grayM 2 1 255 [17, 230])) ∧
    1 ≤ NImage.maxValue (.grayM 2 1 255 [17, 230]) ∧
    NImage.maxValue (.grayM 2 1 255 [17, 230]) ≤ 65535 :=
  C3_range_invariant.1 [80, 50, 10, 50, 32, 49, 10, 50, 53, 53, 10, 49, 55, 32, 50,
    51, 48, 10] (.grayM 2 1 255 [17, 230]) [] (by decide)

theorem wpd_nil (line : List Nat) :
    wpd [] line = if line = [] then [] else setLastLF line := by
  rw [wpd]

theorem wpd_cons (s : Nat) (ss line : List Nat) :
    wpd (s :: ss) line =
      (if line.length + (toDec s ++ [32]).length ≤ 70 then wpd ss (line ++ (toDec s ++ [32]))
       else setLastLF line ++ wpd ss (toDec s ++ [32])) := by
  rw [wpd]

/-- `writePlainData` on three samples of at most three digits each: one
line, the trailing space replaced by the newline. -/
theorem writePlainData_three (r g b : Nat)
    (hr : (toDec r).length ≤ 3) (hg : (toDec g).length ≤ 3)
    (hb : (toDec b).length ≤ 3) :
    writePlainData [r, g, b] = toDec r ++ [32] ++ toDec g ++ [32] ++ toDec b ++ [10] := by
  rw [writePlainData, wpd_cons]
  rw [if_pos (by simp; omega)]
  rw [List.nil_append, wpd_cons]
  rw [if_pos (by simp; omega)]
  rw [wpd_cons]
  rw [if_pos (by simp; omega)]
  rw [wpd_nil, if_neg (by simp)]
  rw [setLastLF]
  rw [show toDec r ++ [32] ++ (toDec g ++ [32]) ++ (toDec b ++ [32]) =
    (toDec r ++ [32] ++ (toDec g ++ [32]) ++ toDec b) ++ [32] from by simp]
  rw [List.dropLast_concat]
  simp

/-! ## C7: plain 1×1 PPM encoding with maxval 800 -/

/-- C7 counterexample: encoding the 1×1 color image with channels (1,2,3)
and maxval 800 in plain mode.  The data line is `1 2 3` followed directly
by the newline — `writePlainData` replaces the line's trailing space with
the newline — not `1 2 3 ` with a trailing space before the newline as the
claim states. -/
theorem C7_counterexample :
    encodePPMbytes (.rgbM64 1 1 800 [0, 1, 0, 2, 0, 3]) ⟨.PPM, 800, true, [], []⟩ =
      [80, 51, 10, 49, 32, 49, 10, 56, 48, 48, 10, 49, 32, 50, 32, 51, 10] ∧
    encodePPMbytes (.rgbM64 1 1 800 [0, 1, 0, 2, 0, 3]) ⟨.PPM, 800, true, [], []⟩ ≠
      [80, 51, 10, 49, 32, 49, 10, 56, 48, 48, 10, 49, 32, 50, 32, 51, 32, 10] := by
  refine ⟨by decide, by decide⟩

/-- C7 (amended): encoding a 1×1 color image with maxval 800 in ASCII
(plain) mode produces the header lines `P3`, `1 1`, `800`, followed by one
data line with the three decimal channel values unscaled, separated by
single spaces and ending directly in the newline (`writePlainData` turns
the line's trailing space into the newline). -/
theorem C7_ppm_plain_1x1 (r g b : Nat) (hr : r ≤ 800) (hg : g ≤ 800) (hb : b ≤ 800) :
    encodePPMbytes
      (.rgbM64 1 1 800 [r / 256, r % 256, g / 256, g % 256, b / 256, b % 256])
      ⟨.PPM, 800, true, [], []⟩ =
      [80, 51, 10, 49, 32, 49, 10, 56, 48, 48, 10] ++
        toDec r ++ [32] ++ toDec g ++ [32] ++ toDec b ++ [10] := by
  have hrv : r / 256 * 256 + r % 256 = r := Nat.div_add_mod' r 256
  have hgv : g / 256 * 256 + g % 256 = g := Nat.div_add_mod' g 256
  have hbv : b / 256 * 256 + b % 256 = b := Nat.div_add_mod' b 256
  have hsamples :
      (pixelColors
        (.rgbM64 1 1 800 [r / 256, r % 256, g / 256, g % 256, b / 256, b % 256])).flatMap
          (fun c => (rgbM64ModelConvert 800 c).rgbChannels) = [r, g, b] := by
    simp [pixelColors, chunk2Vals, chunk3, hrv, hgv, hbv, rgbM64ModelConvert,
      NColor.rgbChannels]
  have e1 : (⟨.PPM, 800, true, [], []⟩ : EncodeOpts).plain = true := rfl
  have e2 : (⟨.PPM, 800, true, [], []⟩ : EncodeOpts).maxValue = 800 := rfl
  have e3 : (⟨.PPM, 800, true, [], []⟩ : EncodeOpts).comments = [] := rfl
  rw [encodePPMbytes]
  simp only [e1, e2, e3, eq_self_iff_true, if_true,
    show ((800 : Nat) < 256) = False from by norm_num, if_false,
    commentLines, List.flatMap_nil, NImage.width, NImage.height]
  rw [hsamples]
  rw [writePlainData_three r g b (toDec_length_le r 3 (by norm_num) (by omega))
    (toDec_length_le g 3 (by norm_num) (by omega))
    (toDec_length_le b 3 (by norm_num) (by omega))]
  rw [show toDec 1 = [49] from by decide, show toDec 800 = [56, 48, 48] from by decide]
  simp

/-- Witness for C7 (amended): channels (1, 2, 3). -/
theorem C7_ppm_plain_1x1_witness :
    encodePPMbytes (.rgbM64 1 1 800 [1 / 256, 1 % 256, 2 / 256, 2 % 256, 3 / 256, 3 % 256])
      ⟨.PPM, 800, true, [], []⟩ =
      [80, 51, 10, 49, 32, 49, 10, 56, 48, 48, 10] ++
        toDec 1 ++ [32] ++ toDec 2 ++ [32] ++ toDec 3 ++ [10] :=
  C7_ppm_plain_1x1 1 2 3 (by decide) (by decide) (by decide)

/-! ## C1: round-trip -/

